import Mathlib

/-!
Verification of the shots-orger screenshot/recording organizer.

The development shallowly embeds the three TypeScript variants of the tool:

* `main.ts`            : metadata-driven organizer with the fixed 2020-2023
                         archival rule (functions suffixed `Main`);
* the recursive variant: filename-driven organizer with the marker-based
                         classifier and `parseFileDate` (suffixed `Part0`);
* the plan/execute variant: `planOperations` / `executeOperations` with the
                         moving `year < current year` rule (suffixed
                         `Planned`, or unsuffixed for the planner itself).

Paths are plain strings; fallible code (Zod `parse`, thrown errors) is
embedded as `Except String`; machine dates are calendar triples as extracted
through the JavaScript `Date` API.
-/

deriving instance DecidableEq for Except

namespace ShotsOrger

/-! ## String and path helpers -/

/-- Boolean substring-free check used to model `Array.prototype.includes`
style membership is not needed; this models `String.prototype.includes`:
`containsSub hay needle` is true when `needle` occurs contiguously in
`hay`. -/
def containsSub (hay needle : List Char) : Bool :=
  match hay with
  | [] => needle.isEmpty
  | _ :: t => needle.isPrefixOf hay || containsSub t needle

/-- Model of `s.includes(sub)` on JavaScript strings. -/
def strContains (s sub : String) : Bool :=
  containsSub s.data sub.data

/-- Model of `s.startsWith(pre)` on JavaScript strings. -/
def strStarts (s pre : String) : Bool :=
  pre.data.isPrefixOf s.data

/-- Model of `s.endsWith(suf)` on JavaScript strings. -/
def strEnds (s suf : String) : Bool :=
  suf.data.isSuffixOf s.data

/-- Model of node `path.join` on two already-normalized segments. -/
def joinPath (a b : String) : String :=
  if a = "" then b else a ++ "/" ++ b

/-- Model of `relativePath.split(sep)` for a one-character separator,
specialized to the slash. Mirrors the JavaScript behavior that splitting
the empty string yields one empty field. -/
def splitSlash : List Char → List (List Char)
  | [] => [[]]
  | a :: t =>
    match splitSlash t with
    | [] => [[]]
    | g :: gs => if a = '/' then [] :: g :: gs else (a :: g) :: gs

/-- Characters of a path after its last slash (the base name). -/
def lastPartChars (cs : List Char) : List Char :=
  ((cs.reverse.takeWhile (fun c => c ≠ '/')).reverse)

/-- Characters of a path before its last slash (the directory part). -/
def dirPartChars (cs : List Char) : List Char :=
  ((cs.reverse.dropWhile (fun c => c ≠ '/')).drop 1).reverse

/-- Model of node `path.dirname` restricted to the shapes the planner
produces (a directory part, one slash, a slash-free base name). -/
def dirPart (s : String) : String :=
  ⟨dirPartChars s.data⟩

/-- Base-name component of a path (after the last slash). -/
def lastPart (s : String) : String :=
  ⟨lastPartChars s.data⟩

/-- Model of `path.replace(rootDir, "").replace(/^\x2f/, "")` under the
precondition that `root` is a prefix of `path`: drop the root, then one
leading slash if present. -/
def stripRoot (root path : String) : String :=
  let rest := path.data.drop root.data.length
  match rest with
  | '/' :: t => ⟨t⟩
  | _ => ⟨rest⟩

/-! ## Dates and the ParsedDate schema -/

/-- A calendar date as observed through the JavaScript `Date` API:
`getFullYear()`, `getMonth() + 1`, `getDate()`. The API guarantees the
month and day components are always in their calendar ranges, which the
invariant fields record. -/
structure JSDate where
  year : Nat
  month : Nat
  day : Nat
  month_ge : 1 ≤ month
  month_le : month ≤ 12
  day_ge : 1 ≤ day
  day_le : day ≤ 31

/-- Filesystem metadata relevant to the organizer: `birthtime` when the
filesystem provides one, and `mtime`. -/
structure Stat where
  birthtime : Option JSDate
  mtime : JSDate

/-- The value type of `ParsedDateSchema`. -/
structure ParsedDate where
  year : Nat
  month : Nat
  day : Nat
  deriving DecidableEq

/-- Model of `ParsedDateSchema.parse`: year at least 2020 (no upper bound in
the source), month in 1..12, day in 1..31; a failing check throws. -/
def parsedDateParse (y m d : Nat) : Except String ParsedDate :=
  if 2020 ≤ y ∧ 1 ≤ m ∧ m ≤ 12 ∧ 1 ≤ d ∧ d ≤ 31 then
    .ok ⟨y, m, d⟩
  else
    .error "ParsedDateSchema: validation failed"

/-- Model of `getFileDateFromCreationTime` (shared text in `main.ts` and the
plan/execute variant): creation time when available, else modification
time, validated through `ParsedDateSchema.parse`. -/
def getFileDateFromCreationTime (st : Stat) : Except String ParsedDate :=
  let creationDate := st.birthtime.getD st.mtime
  parsedDateParse creationDate.year creationDate.month creationDate.day

/-- The fixed month-name table `MONTH_NAMES`. -/
def MONTH_NAMES : List String :=
  [ "01 January", "02 February", "03 March", "04 April", "05 May",
    "06 June", "07 July", "08 August", "09 September", "10 October",
    "11 November", "12 December" ]

/-- Model of `NonEmptyStringSchema.parse(MONTH_NAMES[month - 1])`: an
out-of-range index yields `undefined` and the parse throws, as does an
empty entry. -/
def monthNameParse (month : Nat) : Except String String :=
  match MONTH_NAMES.get? (month - 1) with
  | none => .error "NonEmptyStringSchema: undefined"
  | some mn => if mn = "" then .error "NonEmptyStringSchema: empty" else .ok mn

/-! ## Classifiers -/

/-- Model of `s.toLowerCase()` as a plain map over the characters. -/
def strToLower (s : String) : String :=
  ⟨s.data.map Char.toLower⟩

/-- Model of `shouldOrganizeFile` in `main.ts`: true when the lowercased
filename ends in one of the six media extensions (no dot required, no
marker words, no timestamp branch). Total over all strings. -/
def shouldOrganizeFileMain (filename : String) : Bool :=
  [ "png", "jpg", "jpeg", "mov", "mp4", "gif" ].any
    (fun ext => strEnds (strToLower filename) ext)

/-- Model of `shouldOrganizeFile` in the plan/execute variant: as in
`main.ts` with `mp3` added. -/
def shouldOrganizeFilePlanned (filename : String) : Bool :=
  [ "png", "jpg", "jpeg", "mov", "mp4", "gif", "mp3" ].any
    (fun ext => strEnds (strToLower filename) ext)

/-- True when the first characters are four digits, a dash, two digits, a
dash, two digits and an underscore: the regex `^\d4-\d2-\d2_`
(quantifiers spelled out) anchored at the start. -/
def timestampStart (cs : List Char) : Bool :=
  match cs with
  | y1 :: y2 :: y3 :: y4 :: '-' :: m1 :: m2 :: '-' :: d1 :: d2 :: '_' :: _ =>
    y1.isDigit && y2.isDigit && y3.isDigit && y4.isDigit &&
    m1.isDigit && m2.isDigit && d1.isDigit && d2.isDigit
  | _ => false

/-- Marker test of the recursive variant: the lowercased name contains
one of the screenshot / screen recording / simulator screenshot markers. -/
def isScreenCapture (filename : String) : Bool :=
  let lowerName := strToLower filename
  strContains lowerName "screenshot" ||
  strContains lowerName "screen recording" ||
  strContains lowerName "simulator screenshot"

/-- Extension test of the recursive variant: the case-insensitive regex
requiring a dot followed by one of the six media extensions at the end of
the name. -/
def hasMediaExtension (filename : String) : Bool :=
  [ ".png", ".jpg", ".jpeg", ".mov", ".mp4", ".gif" ].any
    (fun ext => strEnds (strToLower filename) ext)

/-- Model of `shouldOrganizeFile` in the recursive variant: the argument is
first run through `FilenameSchema.parse`, which throws on the empty
string; then markers-and-extension or leading timestamp. -/
def shouldOrganizeFilePart0 (rawFilename : String) : Except String Bool :=
  if rawFilename = "" then .error "FilenameSchema: filename cannot be empty"
  else
    .ok ((isScreenCapture rawFilename && hasMediaExtension rawFilename) ||
         timestampStart rawFilename.data)

/-- Modelled from the specification words of section 4.2 for comparison with
the source classifiers: lowercase form contains one of the markers and the
name ends with one of the media extensions, or the name carries a leading
`YYYY-MM-DD_` timestamp. -/
def specIsOrganizable (filename : String) : Bool :=
  (isScreenCapture filename && hasMediaExtension filename) ||
  timestampStart filename.data

/-! ## Filename date patterns of the recursive variant -/

/-- Numeric value of a digit list already known to hold digits. -/
def digitsVal (cs : List Char) : Nat :=
  cs.foldl (fun acc c => acc * 10 + (c.toNat - '0'.toNat)) 0

/-- Consume exactly `n` decimal digits, returning their value and the rest
of the input. -/
def takeDigits : Nat → List Char → Option (Nat × List Char)
  | 0, cs => some (0, cs)
  | _ + 1, [] => none
  | n + 1, c :: cs =>
    if c.isDigit then
      match takeDigits n cs with
      | some (v, rest) => some ((c.toNat - '0'.toNat) * 10 ^ n + v, rest)
      | none => none
    else none

/-- Consume a literal character sequence. -/
def takeLit : List Char → List Char → Option (List Char)
  | [], cs => some cs
  | _ :: _, [] => none
  | l :: ls, c :: cs => if c = l then takeLit ls cs else none

/-- Consume `\d4-\d2-\d2` (quantifiers spelled out), yielding the three
numeric groups and the rest of the input. -/
def takeDateGroups (cs : List Char) : Option ((Nat × Nat × Nat) × List Char) :=
  match takeDigits 4 cs with
  | none => none
  | some (y, r1) =>
    match takeLit ['-'] r1 with
    | none => none
    | some r2 =>
      match takeDigits 2 r2 with
      | none => none
      | some (m, r3) =>
        match takeLit ['-'] r3 with
        | none => none
        | some r4 =>
          match takeDigits 2 r4 with
          | none => none
          | some (d, r5) => some ((y, m, d), r5)

/-- Consume `\d4-\d2-\d2 at`. -/
def takeDateAt (cs : List Char) : Option (Nat × Nat × Nat) :=
  match takeDateGroups cs with
  | none => none
  | some (groups, rest) =>
    match takeLit [' ', 'a', 't'] rest with
    | none => none
    | some _ => some groups

/-- One attempt of the standard pattern at the current position: the
`Screenshot` or `Screen Recording` literal, a space, and the date groups
followed by a space and `at`. -/
def standardAt (cs : List Char) : Option (Nat × Nat × Nat) :=
  match takeLit "Screenshot ".data cs with
  | some rest => takeDateAt rest
  | none =>
    match takeLit "Screen Recording ".data cs with
    | some rest => takeDateAt rest
    | none => none

/-- Leftmost-match scan of an unanchored pattern, as the JavaScript regex
engine performs it: try the pattern at each successive start position. -/
def scanFirst (f : List Char → Option (Nat × Nat × Nat)) :
    List Char → Option (Nat × Nat × Nat)
  | [] => f []
  | c :: t =>
    match f (c :: t) with
    | some r => some r
    | none => scanFirst f t

/-- After the `Simulator Screenshot` literal, the lazy gap `.*?` (which
cannot cross a line break) followed by the date groups and the space-`at`
literal: take the earliest matching date. -/
def searchDateNoNewline : List Char → Option (Nat × Nat × Nat)
  | [] => takeDateAt []
  | c :: t =>
    match takeDateAt (c :: t) with
    | some r => some r
    | none =>
      if c = '\n' ∨ c = '\r' then none
      else searchDateNoNewline t

/-- One attempt of the simulator pattern at the current position. -/
def simulatorAt (cs : List Char) : Option (Nat × Nat × Nat) :=
  match takeLit "Simulator Screenshot".data cs with
  | some rest => searchDateNoNewline rest
  | none => none

/-- The three filename patterns of `parseFileDate`, tried in source order:
standard screenshot/recording, anchored timestamp, simulator screenshot.
Returns the first matching pattern's numeric groups. -/
def firstPatternMatch (filename : String) : Option (Nat × Nat × Nat) :=
  match scanFirst standardAt filename.data with
  | some r => some r
  | none =>
    match
      (match takeDateGroups filename.data with
       | some (groups, rest) =>
         match takeLit ['_'] rest with
         | some _ => some groups
         | none => none
       | none => none) with
    | some r => some r
    | none => scanFirst simulatorAt filename.data

/-- Model of `parseFileDate` in the recursive variant: `FilenameSchema`
rejects the empty string; no pattern match yields `null`; a match is
validated through `ParsedDateSchema.parse`, which throws when a component
is out of range (year below 2020, month or day outside their calendar
ranges) and otherwise returns the parsed date. -/
def parseFileDate (rawFilename : String) : Except String (Option ParsedDate) :=
  if rawFilename = "" then .error "FilenameSchema: filename cannot be empty"
  else
    match firstPatternMatch rawFilename with
    | none => .ok none
    | some (y, m, d) =>
      match parsedDateParse y m d with
      | .error e => .error e
      | .ok dt => .ok (some dt)

/-! ## Target paths -/

/-- Model of `getTargetPath` in `main.ts` and the recursive variant: both
validate the base directory (nonempty) and the date, pick the month name,
and bifurcate on the fixed range 2020-2023, archival years going under a
`_year` directory. The trailing assertion that the result contains the
month name is kept as a faithful error branch. -/
def getTargetPathMain (baseDir : String) (date : ParsedDate) :
    Except String String :=
  if baseDir = "" then .error "DirectoryPathSchema: empty"
  else
    match parsedDateParse date.year date.month date.day with
    | .error e => .error e
    | .ok vd =>
      match monthNameParse vd.month with
      | .error e => .error e
      | .ok monthName =>
        let result :=
          if 2020 ≤ vd.year ∧ vd.year ≤ 2023 then
            joinPath (joinPath baseDir ("_" ++ Nat.repr vd.year)) monthName
          else
            joinPath baseDir monthName
        if strContains result monthName then .ok result
        else .error "assert: result must contain month name"

/-- The refinements of `DestDirPathSchema` in the plan/execute variant: the
path starts with the root, the relative part's final component contains a
dot, and the relative part has two components, or three with the first
starting with an underscore. -/
def destDirPathCheck (root path : String) : Bool :=
  strStarts path root &&
  (let parts := splitSlash (stripRoot root path).data
   (match parts.getLast? with
    | some last => containsSub last ['.']
    | none => false) &&
   (parts.length = 2 ||
    (parts.length = 3 &&
     match parts.head? with
     | some first => first.head? = some '_'
     | none => false)))

/-- Model of `getTargetPath` in the plan/execute variant: resolve the date
from the file metadata, pick the year and month directory names, and place
the file under a `_year` directory exactly when the year is before the
current calendar year (read from the wall clock in the source, passed here
as `curYear`); the result is the full destination file path validated
through `DestDirPathSchema.parse`. -/
def getTargetPathPlanned (root : String) (curYear : Nat) (name : String)
    (st : Stat) : Except String String :=
  match getFileDateFromCreationTime st with
  | .error e => .error e
  | .ok date =>
    match monthNameParse date.month with
    | .error e => .error e
    | .ok monthDirName =>
      let yearDirName := "_" ++ Nat.repr date.year
      let path :=
        if date.year < curYear then
          joinPath (joinPath (joinPath root yearDirName) monthDirName) name
        else
          joinPath (joinPath root monthDirName) name
      if destDirPathCheck root path then .ok path
      else .error ("DestDirPathSchema: " ++ path)

/-! ## Plan and execute -/

/-- One scanned entry: the dirent fields (`parentPath`, `name`, the
directory flag) and the stat result, as `collectFileStats` gathers them. -/
structure FileInfo where
  parentPath : String
  name : String
  isDir : Bool
  stat : Stat

/-- Full path of a scanned entry, `join(parentPath, name)`. -/
def fullPath (f : FileInfo) : String :=
  joinPath f.parentPath f.name

/-- Keys of `existingFileMap`: full paths of the scanned plain files. -/
def existingPaths (files : List FileInfo) : List String :=
  (files.filter (fun f => !f.isDir)).map fullPath

/-- The tagged operation type of the planner. -/
inductive Op where
  | move (src dest : String)
  | rmdir (dir : String)
  deriving DecidableEq, Repr

/-- The three maps returned by `planOperations`, each modelled as its
insertion-ordered entry list. -/
structure PlanResults where
  plannedOps : List (String × Op)
  plannedMoves : List (String × Op)
  plannedRmdirs : List (String × Op)
  deriving DecidableEq, Repr

/-- Model of `RootDirPathSchema.parse` on a source path: nonempty and
starting with the root. -/
def rootPathParse (root p : String) : Except String String :=
  if p = "" then .error "DirectoryPathSchema: empty"
  else if strStarts p root then .ok p
  else .error ("RootDirPathSchema: " ++ p)

/-- The planning loop of `planOperations`: walk the scanned entries in
order, skip directories, non-organizable names, names present in the
existing-file map, and files whose computed destination already exists;
raise on a duplicate planned destination; otherwise record the move. -/
def planLoop (ex : List String) (root : String) (curYear : Nat) :
    List FileInfo → List (String × Op) → Except String (List (String × Op))
  | [], acc => .ok acc
  | f :: rest, acc =>
    if f.isDir then planLoop ex root curYear rest acc
    else if !shouldOrganizeFilePlanned f.name then planLoop ex root curYear rest acc
    else if ex.contains f.name then planLoop ex root curYear rest acc
    else
      match rootPathParse root (fullPath f) with
      | .error e => .error e
      | .ok srcPath =>
        match getTargetPathPlanned root curYear f.name f.stat with
        | .error e => .error e
        | .ok destPath =>
          if ex.contains destPath then planLoop ex root curYear rest acc
          else if acc.any (fun p => p.1 == destPath) then
            .error ("Duplicate destination planned: " ++ destPath)
          else
            planLoop ex root curYear rest (acc ++ [(destPath, .move srcPath destPath)])

/-- Model of `planOperations`: build the existing-file map from the scan,
run the planning loop, and return the three maps. The source inserts the
same move under the same key into `plannedOps` and `plannedMoves` and never
touches `plannedRmdirs`; the post-loop assertion pass re-checks planned
destinations against the existing-file map, which the loop has already
excluded, so it never fires on a loop result. -/
def planOperations (root : String) (curYear : Nat) (files : List FileInfo) :
    Except String PlanResults :=
  match planLoop (existingPaths files) root curYear files [] with
  | .error e => .error e
  | .ok acc =>
    if acc.any (fun p =>
        match p.2 with
        | .move _ dest => (existingPaths files).contains dest
        | .rmdir _ => false) then
      .error "Duplicate destination planned (assertion pass)"
    else
      .ok ⟨acc, acc, []⟩

/-- The fixed execution bound `MAX_OPS`. -/
def MAX_OPS : Nat := 5000

/-- Filesystem effects the executor can perform, in order. -/
inductive Effect where
  | ensure (dir : String)
  | rename (src dest : String)
  | removeDir (dir : String)
  deriving DecidableEq, Repr

/-- Model of `executeOperations`: iterate the first `MAX_OPS` planned
operations in insertion order; for a move, assert both endpoints lie under
the root (a failing assertion throws), ensure the destination directory and
rename, counting the move; for an rmdir, remove the directory. Returns the
effect trace and the move count. -/
def execLoop (root : String) :
    List Op → List Effect → Nat → Except String (List Effect × Nat)
  | [], effs, count => .ok (effs, count)
  | .move src dest :: rest, effs, count =>
    if strStarts src root then
      if strStarts dest root then
        execLoop root rest (effs ++ [.ensure (dirPart dest), .rename src dest]) (count + 1)
      else .error ("Destination path " ++ dest ++ " is not in root directory")
    else .error ("Source path " ++ src ++ " is not in root directory")
  | .rmdir dir :: rest, effs, count =>
    execLoop root rest (effs ++ [.removeDir dir]) count

/-- Model of `executeOperations` over a plan. -/
def executeOperations (root : String) (res : PlanResults) :
    Except String (List Effect × Nat) :=
  execLoop root ((res.plannedOps.map Prod.snd).take MAX_OPS) [] 0

/-- Source and destination of a move operation, when the operation is one. -/
def opMovePair (op : Op) : Option (String × String) :=
  match op with
  | .move s d => some (s, d)
  | .rmdir _ => none

/-- Effects the executor emits for one operation. -/
def opEffects (op : Op) : List Effect :=
  match op with
  | .move s d => [.ensure (dirPart d), .rename s d]
  | .rmdir dir => [.removeDir dir]

/-- The rename effects of a trace, in order. -/
def renamesOf (effs : List Effect) : List (String × String) :=
  effs.filterMap (fun e =>
    match e with
    | .rename s d => some (s, d)
    | _ => none)

/-- The directory-removal effects of a trace. -/
def removeDirsOf (effs : List Effect) : List String :=
  effs.filterMap (fun e =>
    match e with
    | .removeDir d => some d
    | _ => none)

/-! ## Executing a plan against the scanned tree -/

/-- Effect of executing the plan on one scanned entry: the entry whose full
path is the source of a planned move ends up at the planned destination
(rename preserves the stat); every other entry is untouched. -/
def applyMove (plan : List (String × Op)) (f : FileInfo) : FileInfo :=
  match plan.find? (fun p =>
      match p.2 with
      | .move src _ => src == fullPath f
      | .rmdir _ => false) with
  | some (d, _) => ⟨dirPart d, lastPart d, false, f.stat⟩
  | none => f

/-- The scanned tree after the whole plan has been executed. -/
def applyPlan (plan : List (String × Op)) (files : List FileInfo) :
    List FileInfo :=
  files.map (applyMove plan)

/-! ## Scanner well-formedness -/

/-- What the recursive scanner guarantees about one entry: a nonempty
slash-free dirent name and a parent path under the root. -/
def wfFile (root : String) (f : FileInfo) : Prop :=
  f.name ≠ "" ∧ '/' ∉ f.name.data ∧ strStarts f.parentPath root = true

/-- What the scanner guarantees about a snapshot: a nonempty root, well
formed entries, and pairwise distinct full paths. -/
def wfSnap (root : String) (files : List FileInfo) : Prop :=
  root ≠ "" ∧ (∀ f ∈ files, wfFile root f) ∧ (files.map fullPath).Nodup

/-- The guard chain a file must pass for the planner to record a move for
it: a plain file, organizable, name not a key of the existing-file map,
source path parsing under the root, destination computed, and destination
not an existing file. -/
def plannableB (ex : List String) (root : String) (curYear : Nat)
    (f : FileInfo) : Bool :=
  !f.isDir && shouldOrganizeFilePlanned f.name && !ex.contains f.name &&
  (rootPathParse root (fullPath f)).isOk &&
  (match getTargetPathPlanned root curYear f.name f.stat with
   | .ok d => !ex.contains d
   | .error _ => false)

/-- The computed destination of a file, when the guards pass. -/
def destOfExc (root : String) (curYear : Nat) (f : FileInfo) :
    Except String String :=
  getTargetPathPlanned root curYear f.name f.stat

/-! ## Concrete instances used by witnesses and counterexamples -/

/-- Build a `JSDate` from components within the API ranges. -/
def mkJSDate (y m d : Nat) (h : 1 ≤ m ∧ m ≤ 12 ∧ 1 ≤ d ∧ d ≤ 31) : JSDate :=
  ⟨y, m, d, h.1, h.2.1, h.2.2.1, h.2.2.2⟩

/-- A stat whose creation and modification times are the given day. -/
def mkStat (y m d : Nat) (h : 1 ≤ m ∧ m ≤ 12 ∧ 1 ≤ d ∧ d ≤ 31) : Stat :=
  ⟨some (mkJSDate y m d h), mkJSDate y m d h⟩

/-- A June 2024 screenshot sitting in a subdirectory. -/
def fileSubJune : FileInfo :=
  ⟨"/r/sub", "a.png", false, mkStat 2024 6 5 (by decide)⟩

/-- A July 2024 file sitting at the June destination path. -/
def fileAtJune : FileInfo :=
  ⟨"/r/06 June", "a.png", false, mkStat 2024 7 1 (by decide)⟩

/-- A June 2024 screenshot at the root. -/
def fileRootB : FileInfo :=
  ⟨"/r", "b.png", false, mkStat 2024 6 5 (by decide)⟩

/-- A second June 2024 screenshot with the same name in a subdirectory. -/
def fileSubB : FileInfo :=
  ⟨"/r/sub", "b.png", false, mkStat 2024 6 5 (by decide)⟩

/-- A stat dated before 2020. -/
def statTooOld : Stat := ⟨some (mkJSDate 2019 5 6 (by decide)), mkJSDate 2019 5 6 (by decide)⟩

/-- The directory record created for the July destination. -/
def dirJuly : FileInfo := ⟨"/r", "07 July", true, mkStat 2024 7 1 (by decide)⟩

/-- A plan holding one more entry than the execution bound. -/
def resBig : PlanResults :=
  ⟨List.replicate 5001 ("/r/d", Op.move "/r/s" "/r/d"), [], []⟩

/-! ## Claim C5: classifier totality -/

/-- Claim C5, as stated, is false: the recursive variant's
`shouldOrganizeFile` runs the filename through `FilenameSchema.parse`,
which throws on the empty string instead of returning a boolean. -/
theorem c5_counterexample :
    shouldOrganizeFilePart0 "" =
      .error "FilenameSchema: filename cannot be empty" := by
  rfl

/-- Claim C5 (amended): the `main.ts` and plan/execute classifiers are total
over all strings; the recursive variant's classifier returns a boolean for
every nonempty string but raises a validation error on the empty string. -/
theorem c5_classifier_totality :
    ∀ s : String,
      (s ≠ "" → (shouldOrganizeFilePart0 s).isOk = true) ∧
      (s = "" → (shouldOrganizeFilePart0 s).isOk = false) ∧
      (shouldOrganizeFileMain s = true ∨ shouldOrganizeFileMain s = false) ∧
      (shouldOrganizeFilePlanned s = true ∨ shouldOrganizeFilePlanned s = false) := by
  intro s
  refine ⟨?_, ?_, ?_, ?_⟩
  · intro h
    simp only [shouldOrganizeFilePart0, if_neg h]
    rfl
  · intro h
    subst h
    rfl
  · cases shouldOrganizeFileMain s
    · exact Or.inr rfl
    · exact Or.inl rfl
  · cases shouldOrganizeFilePlanned s
    · exact Or.inr rfl
    · exact Or.inl rfl

/-- Witness for the amended C5 at concrete inputs. -/
theorem c5_classifier_totality_witness :
    (shouldOrganizeFilePart0 "a.png").isOk = true ∧
    (shouldOrganizeFilePart0 "").isOk = false :=
  ⟨(c5_classifier_totality "a.png").1 (by decide),
   (c5_classifier_totality "").2.1 rfl⟩

/-! ## Claim C6: classifier characterization -/

/-- Claim C6, as stated, is false for the `main.ts` and plan/execute
classifiers: a plain `photo.png` has no marker word and no leading
timestamp, so the claimed characterization says it is not organizable, yet
`shouldOrganizeFile` in `main.ts` accepts it on the extension alone. -/
theorem c6_counterexample :
    shouldOrganizeFileMain "photo.png" = true ∧
    specIsOrganizable "photo.png" = false := by
  decide

/-- Claim C6 (amended): the recursive variant's classifier satisfies the
claimed characterization for every nonempty filename (markers and a
dot-separated media extension, or a leading timestamp); the `main.ts` and
plan/execute classifiers instead test only the extension suffix. -/
theorem c6_classifier_iff :
    ∀ s : String, s ≠ "" →
      shouldOrganizeFilePart0 s = .ok (specIsOrganizable s) := by
  intro s h
  simp only [shouldOrganizeFilePart0, specIsOrganizable, if_neg h]

/-- Witness for the amended C6 at a concrete screenshot filename. -/
theorem c6_classifier_iff_witness :
    shouldOrganizeFilePart0 "Screenshot 2024-01-02 at 1.png" =
      .ok (specIsOrganizable "Screenshot 2024-01-02 at 1.png") :=
  c6_classifier_iff _ (by decide)

/-! ## Claim C7: filename date resolver -/

/-- Claim C7, as stated, is false: `ParsedDateSchema` has no upper bound on
the year, so a 2031 date is returned rather than rejected, and an
out-of-range parse (year 1999) raises a validation error instead of
returning null. -/
theorem c7_counterexample :
    parseFileDate "Screenshot 2031-04-05 at x.png" = .ok (some ⟨2031, 4, 5⟩) ∧
    parseFileDate "Screenshot 1999-04-05 at x.png" =
      .error "ParsedDateSchema: validation failed" := by
  constructor
  · rfl
  · rfl

/-- Claim C7 (amended): on a nonempty filename the resolver tries the three
patterns in their fixed order and takes the first match; no match yields
null; a match is validated with year at least 2020 (no 2030 upper bound),
month in 1..12 and day in 1..31, an out-of-range component raising a
validation error rather than yielding null. -/
theorem c7_filename_resolver :
    ∀ s : String, s ≠ "" →
      (firstPatternMatch s = none → parseFileDate s = .ok none) ∧
      (∀ y m d, firstPatternMatch s = some (y, m, d) →
        ((2020 ≤ y ∧ 1 ≤ m ∧ m ≤ 12 ∧ 1 ≤ d ∧ d ≤ 31) →
          parseFileDate s = .ok (some ⟨y, m, d⟩)) ∧
        (¬(2020 ≤ y ∧ 1 ≤ m ∧ m ≤ 12 ∧ 1 ≤ d ∧ d ≤ 31) →
          parseFileDate s = .error "ParsedDateSchema: validation failed")) := by
  intro s hs
  constructor
  · intro h
    simp only [parseFileDate, if_neg hs, h]
  · intro y m d h
    constructor
    · intro hr
      simp only [parseFileDate, if_neg hs, h, parsedDateParse, if_pos hr]
    · intro hr
      simp only [parseFileDate, if_neg hs, h, parsedDateParse, if_neg hr]

/-- Witness for the amended C7 at a concrete timestamp filename. -/
theorem c7_filename_resolver_witness :
    parseFileDate "2024-03-05_x.mov" = .ok (some ⟨2024, 3, 5⟩) :=
  ((c7_filename_resolver "2024-03-05_x.mov" (by decide)).2 2024 3 5
    (by decide)).1 (by decide)

/-! ## Claim C8: metadata date resolver -/

/-- Claim C8, as stated, is false: a present timestamp whose year is before
2020 makes `ParsedDateSchema.parse` throw inside
`getFileDateFromCreationTime`, so the metadata resolver does not always
succeed. -/
theorem c8_counterexample :
    getFileDateFromCreationTime statTooOld =
      .error "ParsedDateSchema: validation failed" := by
  rfl

/-- Claim C8 (amended): the metadata resolver reads the creation time when
available and otherwise the modification time; it succeeds exactly when
that timestamp's year is at least 2020 (month and day from the `Date` API
are always within their calendar ranges), raising a validation error for
earlier years, and any date it returns satisfies the claimed bounds. -/
theorem c8_metadata_resolver :
    ∀ st : Stat,
      (2020 ≤ (st.birthtime.getD st.mtime).year →
        getFileDateFromCreationTime st =
          .ok ⟨(st.birthtime.getD st.mtime).year,
               (st.birthtime.getD st.mtime).month,
               (st.birthtime.getD st.mtime).day⟩) ∧
      ((st.birthtime.getD st.mtime).year < 2020 →
        getFileDateFromCreationTime st =
          .error "ParsedDateSchema: validation failed") ∧
      (∀ dt, getFileDateFromCreationTime st = .ok dt →
        2020 ≤ dt.year ∧ 1 ≤ dt.month ∧ dt.month ≤ 12 ∧
          1 ≤ dt.day ∧ dt.day ≤ 31) := by
  intro st
  have hm1 := (st.birthtime.getD st.mtime).month_ge
  have hm2 := (st.birthtime.getD st.mtime).month_le
  have hd1 := (st.birthtime.getD st.mtime).day_ge
  have hd2 := (st.birthtime.getD st.mtime).day_le
  refine ⟨?_, ?_, ?_⟩
  · intro hy
    simp only [getFileDateFromCreationTime, parsedDateParse,
      if_pos (And.intro hy (And.intro hm1 (And.intro hm2 (And.intro hd1 hd2))))]
  · intro hy
    have hcond : ¬(2020 ≤ (st.birthtime.getD st.mtime).year ∧
        1 ≤ (st.birthtime.getD st.mtime).month ∧
        (st.birthtime.getD st.mtime).month ≤ 12 ∧
        1 ≤ (st.birthtime.getD st.mtime).day ∧
        (st.birthtime.getD st.mtime).day ≤ 31) := by
      intro hc
      exact absurd hc.1 (Nat.not_le_of_lt hy)
    simp only [getFileDateFromCreationTime, parsedDateParse, if_neg hcond]
  · intro dt hdt
    simp only [getFileDateFromCreationTime, parsedDateParse] at hdt
    split at hdt
    · rename_i hc
      cases hdt
      exact hc
    · cases hdt

/-- Witness for the amended C8 at a concrete 2024 stat. -/
theorem c8_metadata_resolver_witness :
    getFileDateFromCreationTime (mkStat 2024 6 5 (by decide)) =
      .ok ⟨2024, 6, 5⟩ :=
  (c8_metadata_resolver (mkStat 2024 6 5 (by decide))).1 (by decide)

/-! ## Claim C9: planning determinism -/

/-- Claim C9, as stated, is false: the planner consults the wall clock (the
current calendar year) through `getTargetPath`, so the same scan snapshot
planned under different current years yields different plans. -/
theorem c9_counterexample :
    planOperations "/r" 2024 [fileRootB] ≠ planOperations "/r" 2025 [fileRootB] := by
  decide

/-- Claim C9 (amended): planning is deterministic given a fixed scan
snapshot, root and current calendar year; repeated runs on the same inputs
produce the same plan. -/
theorem c9_planning_determinism :
    ∀ (root : String) (curYear : Nat) (files : List FileInfo),
      planOperations root curYear files = planOperations root curYear files :=
  fun _ _ _ => rfl

/-! ## Executor lemmas -/

/-- On a list of moves whose endpoints lie under the root, the execution
loop succeeds, emits the per-operation effects in order, and counts one
move per operation. -/
theorem execLoop_moves (root : String) :
    ∀ (ops : List Op) (effs : List Effect) (count : Nat),
      (∀ op ∈ ops, ∃ s d, op = Op.move s d ∧
        strStarts s root = true ∧ strStarts d root = true) →
      execLoop root ops effs count =
        .ok (effs ++ ops.flatMap opEffects, count + ops.length) := by
  intro ops
  induction ops with
  | nil =>
    intro effs count _
    simp [execLoop]
  | cons op rest ih =>
    intro effs count h
    obtain ⟨s, d, rfl, hs, hd⟩ := h op (List.mem_cons_self op rest)
    simp only [execLoop, if_pos hs, if_pos hd]
    rw [ih _ _ (fun o ho => h o (List.mem_cons_of_mem _ ho))]
    simp [opEffects, List.flatMap_cons, List.append_assoc, Nat.add_assoc,
      Nat.add_comm 1 rest.length]

/-- The rename trace of a list of move effects is the move pair list. -/
theorem renamesOf_flatMap_moves :
    ∀ ops : List Op, (∀ op ∈ ops, ∃ s d, op = Op.move s d) →
      renamesOf (ops.flatMap opEffects) = ops.filterMap opMovePair := by
  intro ops
  induction ops with
  | nil => intro _; rfl
  | cons op rest ih =>
    intro h
    obtain ⟨s, d, rfl⟩ := h op (List.mem_cons_self op rest)
    simp only [List.flatMap_cons, opEffects, renamesOf, List.filterMap_append]
    rw [show List.filterMap
        (fun e => match e with | .rename s d => some (s, d) | _ => none)
        ([Effect.ensure (dirPart d), Effect.rename s d]) = [(s, d)] from rfl]
    have := ih (fun o ho => h o (List.mem_cons_of_mem _ ho))
    simp only [renamesOf] at this
    rw [this]
    rfl

/-- On an all-move list, every operation yields one move pair. -/
theorem movePairs_length :
    ∀ ops : List Op, (∀ op ∈ ops, ∃ s d, op = Op.move s d) →
      (ops.filterMap opMovePair).length = ops.length := by
  intro ops
  induction ops with
  | nil => intro _; rfl
  | cons op rest ih =>
    intro h
    obtain ⟨s, d, rfl⟩ := h op (List.mem_cons_self op rest)
    simp only [List.filterMap_cons, opMovePair]
    rw [List.length_cons, ih (fun o ho => h o (List.mem_cons_of_mem _ ho))]
    rfl

/-! ## Claim C3: bounded execution -/

/-- Claim C3: the executor walks the plan in insertion order and performs
exactly `min MAX_OPS n` of its `n` operations, the first `MAX_OPS` of them
when the plan is larger than the bound and all of them otherwise; the
remaining entries contribute no effect. -/
theorem c3_bounded_execution :
    ∀ (root : String) (res : PlanResults),
      (∀ p ∈ res.plannedOps, ∃ s d, p.2 = Op.move s d ∧
        strStarts s root = true ∧ strStarts d root = true) →
      ∃ effs,
        executeOperations root res = .ok (effs, min MAX_OPS res.plannedOps.length) ∧
        renamesOf effs =
          ((res.plannedOps.map Prod.snd).take MAX_OPS).filterMap opMovePair ∧
        (MAX_OPS < res.plannedOps.length → (renamesOf effs).length = MAX_OPS) ∧
        (res.plannedOps.length ≤ MAX_OPS →
          renamesOf effs = (res.plannedOps.map Prod.snd).filterMap opMovePair ∧
          (renamesOf effs).length = res.plannedOps.length) := by
  intro root res h
  have hall : ∀ op ∈ (res.plannedOps.map Prod.snd).take MAX_OPS,
      ∃ s d, op = Op.move s d ∧ strStarts s root = true ∧ strStarts d root = true := by
    intro op hop
    obtain ⟨p, hp, rfl⟩ := List.mem_map.1 (List.mem_of_mem_take hop)
    exact h p hp
  have hmoves : ∀ op ∈ (res.plannedOps.map Prod.snd).take MAX_OPS,
      ∃ s d, op = Op.move s d := by
    intro op hop
    obtain ⟨s, d, hsd, -, -⟩ := hall op hop
    exact ⟨s, d, hsd⟩
  have hlen : ((res.plannedOps.map Prod.snd).take MAX_OPS).length =
      min MAX_OPS res.plannedOps.length := by
    rw [List.length_take, List.length_map]
  refine ⟨((res.plannedOps.map Prod.snd).take MAX_OPS).flatMap opEffects, ?_, ?_, ?_, ?_⟩
  · unfold executeOperations
    rw [execLoop_moves root _ [] 0 hall]
    rw [List.nil_append, Nat.zero_add]
    rw [hlen]
  · exact renamesOf_flatMap_moves _ hmoves
  · intro hlt
    rw [renamesOf_flatMap_moves _ hmoves, movePairs_length _ hmoves, hlen]
    exact Nat.min_eq_left (Nat.le_of_lt hlt)
  · intro hle
    constructor
    · rw [renamesOf_flatMap_moves _ hmoves,
        List.take_of_length_le (by rw [List.length_map]; exact hle)]
    · rw [renamesOf_flatMap_moves _ hmoves, movePairs_length _ hmoves, hlen]
      exact Nat.min_eq_right hle

/-- Witness for C3: a plan one entry over the bound executes exactly
`MAX_OPS` moves. -/
theorem c3_bounded_execution_witness :
    ∃ effs, executeOperations "/r" resBig = .ok (effs, 5000) ∧
      (renamesOf effs).length = 5000 := by
  obtain ⟨effs, h1, -, h3, -⟩ := c3_bounded_execution "/r" resBig (by
    intro p hp
    have hx : p = ("/r/d", Op.move "/r/s" "/r/d") := List.eq_of_mem_replicate hp
    subst hx
    exact ⟨"/r/s", "/r/d", rfl, by decide, by decide⟩)
  have hlen : resBig.plannedOps.length = 5001 := by
    show (List.replicate 5001 ("/r/d", Op.move "/r/s" "/r/d")).length = 5001
    rw [List.length_replicate]
  rw [hlen] at h1 h3
  refine ⟨effs, ?_, h3 (by decide)⟩
  rw [h1]
  rfl

/-! ## Plan-shape lemmas -/

/-- Entries the planning loop adds to its accumulator are always moves. -/
theorem planLoop_moves (ex : List String) (root : String) (curYear : Nat) :
    ∀ (fs : List FileInfo) (acc plan : List (String × Op)),
      planLoop ex root curYear fs acc = .ok plan →
      (∀ p ∈ acc, ∃ s d, p.2 = Op.move s d) →
      ∀ p ∈ plan, ∃ s d, p.2 = Op.move s d := by
  intro fs
  induction fs with
  | nil =>
    intro acc plan h hacc
    cases h
    exact hacc
  | cons f rest ih =>
    intro acc plan h hacc
    simp only [planLoop] at h
    split at h
    · exact ih _ _ h hacc
    · split at h
      · exact ih _ _ h hacc
      · split at h
        · exact ih _ _ h hacc
        · split at h
          · cases h
          · split at h
            · cases h
            · split at h
              · exact ih _ _ h hacc
              · split at h
                · cases h
                · refine ih _ _ h ?_
                  intro p hp
                  rcases List.mem_append.1 hp with hp | hp
                  · exact hacc p hp
                  · rcases List.mem_singleton.1 hp with rfl
                    exact ⟨_, _, rfl⟩

/-- A successful `execLoop` run over moves only records no directory
removals beyond the starting trace. -/
theorem execLoop_no_removeDir (root : String) :
    ∀ (ops : List Op) (effs0 : List Effect) (count : Nat)
      (effs : List Effect) (n : Nat),
      (∀ op ∈ ops, ∃ s d, op = Op.move s d) →
      execLoop root ops effs0 count = .ok (effs, n) →
      removeDirsOf effs = removeDirsOf effs0 := by
  intro ops
  induction ops with
  | nil =>
    intro effs0 count effs n _ h
    cases h
    rfl
  | cons op rest ih =>
    intro effs0 count effs n hmv h
    obtain ⟨s, d, rfl⟩ := hmv op (List.mem_cons_self op rest)
    simp only [execLoop] at h
    split at h
    · split at h
      · have := ih _ _ _ _ (fun o ho => hmv o (List.mem_cons_of_mem _ ho)) h
        rw [this]
        simp [removeDirsOf, List.filterMap_append]
      · cases h
    · cases h

/-! ## Claim C10: no rmdir operations -/

/-- Claim C10: a successful plan contains only move operations, its
`plannedRmdirs` map is empty, and executing it removes no directory. -/
theorem c10_no_rmdir :
    ∀ (root : String) (curYear : Nat) (files : List FileInfo) (res : PlanResults),
      planOperations root curYear files = .ok res →
      res.plannedRmdirs = [] ∧
      (∀ p ∈ res.plannedOps, ∃ s d, p.2 = Op.move s d) ∧
      (∀ effs n, executeOperations root res = .ok (effs, n) →
        removeDirsOf effs = []) := by
  intro root curYear files res h
  simp only [planOperations] at h
  split at h
  · cases h
  · rename_i acc hacc
    split at h
    · cases h
    · cases h
      refine ⟨rfl, ?_, ?_⟩
      · exact planLoop_moves _ _ _ _ _ _ hacc (by intro p hp; cases hp)
      · intro effs n hex
        have hmv : ∀ op ∈ (acc.map Prod.snd).take MAX_OPS, ∃ s d, op = Op.move s d := by
          intro op hop
          obtain ⟨p, hp, rfl⟩ := List.mem_map.1 (List.mem_of_mem_take hop)
          exact planLoop_moves _ _ _ _ _ _ hacc (by intro q hq; cases hq) p hp
        exact execLoop_no_removeDir root _ [] 0 effs n hmv hex

/-- Witness for C10 at a concrete one-file snapshot. -/
theorem c10_no_rmdir_witness :
    (PlanResults.mk
      [("/r/06 June/b.png", Op.move "/r/b.png" "/r/06 June/b.png")]
      [("/r/06 June/b.png", Op.move "/r/b.png" "/r/06 June/b.png")]
      []).plannedRmdirs = [] ∧
    removeDirsOf [Effect.ensure "/r/06 June",
      Effect.rename "/r/b.png" "/r/06 June/b.png"] = [] := by
  have h := c10_no_rmdir "/r" 2024 [fileRootB]
    (PlanResults.mk
      [("/r/06 June/b.png", Op.move "/r/b.png" "/r/06 June/b.png")]
      [("/r/06 June/b.png", Op.move "/r/b.png" "/r/06 June/b.png")]
      []) (by decide)
  exact ⟨h.1, h.2.2 _ 1 (by decide)⟩

/-! ## String-shape lemmas -/

theorem isPrefixOf_nil_left : ∀ t : List Char, [].isPrefixOf t = true := by
  intro t
  cases t with
  | nil => rfl
  | cons c u => rfl

theorem isPrefixOf_self : ∀ l : List Char, l.isPrefixOf l = true := by
  intro l
  induction l with
  | nil => rfl
  | cons c t ih =>
    show (c == c && t.isPrefixOf t) = true
    rw [ih, beq_self_eq_true]
    rfl

theorem isPrefixOf_append_self : ∀ l t : List Char, l.isPrefixOf (l ++ t) = true := by
  intro l
  induction l with
  | nil => intro t; exact isPrefixOf_nil_left t
  | cons c u ih =>
    intro t
    show (c == c && u.isPrefixOf (u ++ t)) = true
    rw [ih t, beq_self_eq_true]
    rfl

theorem containsSub_suffix : ∀ xs ys : List Char, containsSub (xs ++ ys) ys = true := by
  intro xs
  induction xs with
  | nil =>
    intro ys
    cases ys with
    | nil => rfl
    | cons c t =>
      show (List.isPrefixOf (c :: t) (c :: t) || containsSub t (c :: t)) = true
      rw [isPrefixOf_self, Bool.true_or]
  | cons x xs ih =>
    intro ys
    show (List.isPrefixOf ys (x :: (xs ++ ys)) || containsSub (xs ++ ys) ys) = true
    rw [ih ys, Bool.or_true]

theorem data_ne_nil {s : String} (h : s ≠ "") : s.data ≠ [] := by
  intro hd
  apply h
  cases s with
  | mk l =>
    simp only [String.data] at hd
    subst hd
    rfl

theorem joinPath_data (a b : String) (h : a ≠ "") :
    (joinPath a b).data = a.data ++ '/' :: b.data := by
  unfold joinPath
  rw [if_neg h, String.data_append, String.data_append]
  rw [List.append_assoc]
  rfl

theorem joinPath_ne_empty (a b : String) (h : a ≠ "") : joinPath a b ≠ "" := by
  intro he
  have hd : (joinPath a b).data = [] := by rw [he]
  rw [joinPath_data a b h] at hd
  rcases List.append_eq_nil.1 hd with ⟨-, h2⟩
  cases h2

theorem strContains_joinPath (a mn : String) (h : a ≠ "") :
    strContains (joinPath a mn) mn = true := by
  unfold strContains
  rw [joinPath_data a mn h]
  have hsh : a.data ++ '/' :: mn.data = (a.data ++ ['/']) ++ mn.data := by
    rw [List.append_assoc]
    rfl
  rw [hsh]
  exact containsSub_suffix _ _

theorem splitSlash_ne_nil : ∀ cs : List Char, splitSlash cs ≠ [] := by
  intro cs
  induction cs with
  | nil => intro h; cases h
  | cons c t ih =>
    intro h
    simp only [splitSlash] at h
    rcases hsp : splitSlash t with - | ⟨g, gs⟩
    · exact ih hsp
    · rw [hsp] at h
      revert h
      by_cases hc : c = '/' <;> simp [hc]

theorem splitSlash_no_slash : ∀ cs : List Char, '/' ∉ cs → splitSlash cs = [cs] := by
  intro cs
  induction cs with
  | nil => intro _; rfl
  | cons c t ih =>
    intro h
    have hc : ¬c = '/' := by
      intro hcc
      exact h (hcc ▸ List.mem_cons_self c t)
    have ht : '/' ∉ t := fun hm => h (List.mem_cons_of_mem _ hm)
    simp only [splitSlash, ih ht]
    simp [hc]

theorem splitSlash_append : ∀ (a cs : List Char), '/' ∉ a →
    splitSlash (a ++ '/' :: cs) = a :: splitSlash cs := by
  intro a
  induction a with
  | nil =>
    intro cs _
    show splitSlash ('/' :: cs) = [] :: splitSlash cs
    rcases hsp : splitSlash cs with - | ⟨g, gs⟩
    · exact absurd hsp (splitSlash_ne_nil cs)
    · simp only [splitSlash, hsp]
      simp
  | cons c t ih =>
    intro cs h
    have hc : ¬c = '/' := by
      intro hcc
      exact h (hcc ▸ List.mem_cons_self c t)
    have ht : '/' ∉ t := fun hm => h (List.mem_cons_of_mem _ hm)
    show splitSlash (c :: (t ++ '/' :: cs)) = (c :: t) :: splitSlash cs
    rcases hsp : splitSlash (t ++ '/' :: cs) with - | ⟨g, gs⟩
    · exact absurd hsp (splitSlash_ne_nil _)
    · have hih := ih cs ht
      rw [hsp] at hih
      simp only [splitSlash, hsp]
      simp only [hc, if_false]
      cases hih
      rfl

theorem stripRoot_of_append {root path : String} {rel : List Char}
    (h : path.data = root.data ++ '/' :: rel) : stripRoot root path = ⟨rel⟩ := by
  unfold stripRoot
  rw [h, List.drop_left]
  rfl

theorem strStarts_of_append {path root : String} {x : List Char}
    (h : path.data = root.data ++ x) : strStarts path root = true := by
  unfold strStarts
  rw [h]
  exact isPrefixOf_append_self _ _

theorem digitChar_ne_slash : ∀ k, k < 10 → Nat.digitChar k ≠ '/' := by decide

theorem toDigitsCore_no_slash (fuel : Nat) :
    ∀ (n : Nat) (ds : List Char), (∀ c ∈ ds, c ≠ '/') →
      ∀ c ∈ Nat.toDigitsCore 10 fuel n ds, c ≠ '/' := by
  induction fuel with
  | zero =>
    intro n ds h c hc
    rw [Nat.toDigitsCore] at hc
    exact h c hc
  | succ fuel ih =>
    intro n ds h c hc
    rw [Nat.toDigitsCore] at hc
    have hdig : ∀ c ∈ (n % 10).digitChar :: ds, c ≠ '/' := by
      intro c hcm
      rcases List.mem_cons.1 hcm with rfl | hcm
      · exact digitChar_ne_slash _ (Nat.mod_lt _ (by decide))
      · exact h c hcm
    by_cases hz : n / 10 = 0
    · rw [if_pos hz] at hc
      exact hdig c hc
    · rw [if_neg hz] at hc
      exact ih _ _ hdig c hc

theorem repr_no_slash (n : Nat) : '/' ∉ (Nat.repr n).data := by
  intro hm
  have : ∀ c ∈ (Nat.repr n).data, c ≠ '/' := by
    show ∀ c ∈ Nat.toDigitsCore 10 (n + 1) n [], c ≠ '/'
    exact toDigitsCore_no_slash (n + 1) n [] (by intro c hc; cases hc)
  exact this '/' hm rfl

theorem month_names_facts :
    ∀ mn ∈ MONTH_NAMES, '/' ∉ mn.data ∧ mn ≠ "" := by decide

theorem monthNameParse_facts {month : Nat} {mn : String}
    (h : monthNameParse month = .ok mn) : '/' ∉ mn.data ∧ mn ≠ "" := by
  unfold monthNameParse at h
  split at h
  · cases h
  · next mn2 hg =>
    split at h
    · cases h
    · cases h
      exact month_names_facts mn (List.get?_mem hg)

theorem destDirPathCheck_two {root mn name : String} (hroot : root ≠ "")
    (hmn : '/' ∉ mn.data) (hname : '/' ∉ name.data)
    (hdot : containsSub name.data ['.'] = true) :
    destDirPathCheck root (joinPath (joinPath root mn) name) = true := by
  have hjdata : (joinPath (joinPath root mn) name).data =
      root.data ++ '/' :: (mn.data ++ '/' :: name.data) := by
    rw [joinPath_data _ _ (joinPath_ne_empty root mn hroot),
      joinPath_data root mn hroot, List.append_assoc]
    rfl
  unfold destDirPathCheck
  rw [strStarts_of_append hjdata, stripRoot_of_append hjdata]
  show (true && _) = true
  rw [Bool.true_and]
  have hsplit : splitSlash (mn.data ++ '/' :: name.data) = [mn.data, name.data] := by
    rw [splitSlash_append mn.data name.data hmn, splitSlash_no_slash name.data hname]
  have hlast : ([mn.data, name.data] : List (List Char)).getLast? = some name.data := rfl
  simp only [String.data, hsplit, hlast, hdot, List.length]
  simp

theorem destDirPathCheck_three {root yd mn name : String} (hroot : root ≠ "")
    (hydh : yd.data.head? = some '_') (hyd : '/' ∉ yd.data)
    (hmn : '/' ∉ mn.data) (hname : '/' ∉ name.data)
    (hdot : containsSub name.data ['.'] = true) :
    destDirPathCheck root (joinPath (joinPath (joinPath root yd) mn) name) = true := by
  have hyne : yd ≠ "" := by
    intro he
    rw [he] at hydh
    cases hydh
  have hjdata : (joinPath (joinPath (joinPath root yd) mn) name).data =
      root.data ++ '/' :: (yd.data ++ '/' :: (mn.data ++ '/' :: name.data)) := by
    rw [joinPath_data _ _ (joinPath_ne_empty _ mn (joinPath_ne_empty root yd hroot)),
      joinPath_data _ _ (joinPath_ne_empty root yd hroot),
      joinPath_data root yd hroot, List.append_assoc, List.append_assoc]
    rfl
  unfold destDirPathCheck
  rw [strStarts_of_append hjdata, stripRoot_of_append hjdata]
  show (true && _) = true
  rw [Bool.true_and]
  have hsplit : splitSlash (yd.data ++ '/' :: (mn.data ++ '/' :: name.data)) =
      [yd.data, mn.data, name.data] := by
    rw [splitSlash_append yd.data _ hyd, splitSlash_append mn.data name.data hmn,
      splitSlash_no_slash name.data hname]
  have hlast : ([yd.data, mn.data, name.data] : List (List Char)).getLast? =
      some name.data := rfl
  have hhead : ([yd.data, mn.data, name.data] : List (List Char)).head? =
      some yd.data := rfl
  simp only [String.data, hsplit, hlast, hhead, hdot, List.length, hydh]
  simp

/-! ## Claim C4: year bifurcation -/

/-- Claim C4, as stated, is false for the plan/execute variant: its
`getTargetPath` bifurcates on the current calendar year, so a 2024 date
planned when the current year is 2025 receives a `_2024` segment even
though 2024 is at least 2024. -/
theorem c4_counterexample :
    getTargetPathPlanned "/r" 2025 "a.png" (mkStat 2024 6 5 (by decide)) =
      .ok "/r/_2024/06 June/a.png" ∧
    strContains "/r/_2024/06 June/a.png" "_2024" = true := by
  constructor
  · rfl
  · rfl

/-- Claim C4 (amended): the fixed-rule variants (`main.ts` and the
recursive variant) put a date with year 2020-2023 under a `_year`
directory and any later year directly under the month directory; the
plan/execute variant instead bifurcates on the current calendar year, the
`_year` segment appearing exactly when the file's year is before it. -/
theorem c4_year_bifurcation :
    (∀ (root : String) (d : ParsedDate) (mn : String),
      root ≠ "" → monthNameParse d.month = .ok mn →
      2020 ≤ d.year → 1 ≤ d.month → d.month ≤ 12 → 1 ≤ d.day → d.day ≤ 31 →
      (d.year ≤ 2023 →
        getTargetPathMain root d =
          .ok (joinPath (joinPath root ("_" ++ Nat.repr d.year)) mn)) ∧
      (2024 ≤ d.year →
        getTargetPathMain root d = .ok (joinPath root mn))) ∧
    (∀ (root name : String) (curYear : Nat) (st : Stat) (dt : ParsedDate)
        (mn : String),
      root ≠ "" → name ≠ "" → '/' ∉ name.data → strContains name "." = true →
      getFileDateFromCreationTime st = .ok dt →
      monthNameParse dt.month = .ok mn →
      (dt.year < curYear →
        getTargetPathPlanned root curYear name st =
          .ok (joinPath (joinPath (joinPath root ("_" ++ Nat.repr dt.year)) mn)
            name)) ∧
      (curYear ≤ dt.year →
        getTargetPathPlanned root curYear name st =
          .ok (joinPath (joinPath root mn) name))) := by
  constructor
  · intro root d mn hroot hmn hy hm1 hm2 hd1 hd2
    have hparse : parsedDateParse d.year d.month d.day = .ok ⟨d.year, d.month, d.day⟩ := by
      unfold parsedDateParse
      rw [if_pos (And.intro hy (And.intro hm1 (And.intro hm2 (And.intro hd1 hd2))))]
    constructor
    · intro h2023
      have hcond : 2020 ≤ d.year ∧ d.year ≤ 2023 := And.intro hy h2023
      have hcontains := strContains_joinPath
        (joinPath root ("_" ++ Nat.repr d.year)) mn
        (joinPath_ne_empty root ("_" ++ Nat.repr d.year) hroot)
      simp only [getTargetPathMain, if_neg hroot, hparse, hmn, if_pos hcond,
        hcontains, if_true]
    · intro h2024
      have hcond : ¬(2020 ≤ d.year ∧ d.year ≤ 2023) := by
        intro hc
        omega
      have hcontains := strContains_joinPath root mn hroot
      simp only [getTargetPathMain, if_neg hroot, hparse, hmn, if_neg hcond,
        hcontains, if_true]
  · intro root name curYear st dt mn hroot hname hns hdot hdt hmn
    have hmnfacts := monthNameParse_facts hmn
    have hydh : ("_" ++ Nat.repr dt.year).data.head? = some '_' := by
      rw [String.data_append]
      rfl
    have hydns : '/' ∉ ("_" ++ Nat.repr dt.year).data := by
      rw [String.data_append]
      intro hm
      rcases List.mem_append.1 hm with hm | hm
      · cases List.mem_singleton.1 hm
      · exact repr_no_slash dt.year hm
    have hdotc : containsSub name.data ['.'] = true := hdot
    constructor
    · intro hlt
      have hcheck := destDirPathCheck_three hroot hydh hydns hmnfacts.1 hns hdotc
      simp only [getTargetPathPlanned, hdt, hmn, if_pos hlt, hcheck, if_true]
    · intro hge
      have hcheck := destDirPathCheck_two hroot hmnfacts.1 hns hdotc
      simp only [getTargetPathPlanned, hdt, hmn, if_neg (Nat.not_lt.2 hge),
        hcheck, if_true]

/-- Witness for the amended C4 at concrete dates of each shape. -/
theorem c4_year_bifurcation_witness :
    getTargetPathMain "/r" ⟨2022, 3, 14⟩ = .ok "/r/_2022/03 March" ∧
    getTargetPathMain "/r" ⟨2025, 6, 1⟩ = .ok "/r/06 June" ∧
    getTargetPathPlanned "/r" 2024 "a.png" (mkStat 2024 6 5 (by decide)) =
      .ok "/r/06 June/a.png" := by
  refine ⟨?_, ?_, ?_⟩
  · have h := (c4_year_bifurcation.1 "/r" ⟨2022, 3, 14⟩ "03 March" (by decide)
      (by decide) (by decide) (by decide) (by decide) (by decide) (by decide)).1
      (by decide)
    rw [h]
    rfl
  · have h := (c4_year_bifurcation.1 "/r" ⟨2025, 6, 1⟩ "06 June" (by decide)
      (by decide) (by decide) (by decide) (by decide) (by decide) (by decide)).2
      (by decide)
    rw [h]
    rfl
  · have h := (c4_year_bifurcation.2 "/r" "a.png" 2024
      (mkStat 2024 6 5 (by decide)) ⟨2024, 6, 5⟩ "06 June" (by decide)
      (by decide) (by decide) (by decide) (by decide) (by decide)).2 (by decide)
    rw [h]
    rfl

/-! ## Planning-loop lemmas -/

theorem rootPathParse_isOk {root p : String}
    (h : (rootPathParse root p).isOk = true) : rootPathParse root p = .ok p := by
  unfold rootPathParse at h ⊢
  by_cases h1 : p = ""
  · rw [if_pos h1] at h
    simp [Except.isOk, Except.toBool] at h
  · rw [if_neg h1] at h ⊢
    by_cases h2 : strStarts p root = true
    · rw [if_pos h2]
    · rw [if_neg h2] at h
      simp [Except.isOk, Except.toBool] at h

/-- On a file passing every guard, one planning step either raises the
duplicate-destination error or records the move. -/
theorem planLoop_step_plannable {ex : List String} {root : String}
    {curYear : Nat} {f : FileInfo} {dest : String} (rest : List FileInfo)
    (acc : List (String × Op))
    (hpl : plannableB ex root curYear f = true)
    (hdest : destOfExc root curYear f = .ok dest) :
    planLoop ex root curYear (f :: rest) acc =
      if acc.any (fun p => p.1 == dest) then
        .error ("Duplicate destination planned: " ++ dest)
      else planLoop ex root curYear rest
        (acc ++ [(dest, .move (fullPath f) dest)]) := by
  have hpl' := hpl
  simp only [plannableB, Bool.and_eq_true] at hpl'
  obtain ⟨⟨⟨⟨ha, hb⟩, hc⟩, hd1⟩, he⟩ := hpl'
  have hdir : f.isDir = false := by
    cases hv : f.isDir
    · rfl
    · rw [hv] at ha
      cases ha
  have hsrc := rootPathParse_isOk hd1
  have hdep : getTargetPathPlanned root curYear f.name f.stat = .ok dest := hdest
  simp only [hdep] at he
  have hnameF : ex.contains f.name = false := by
    cases hv : ex.contains f.name
    · rfl
    · rw [hv] at hc
      cases hc
  have hne : ex.contains dest = false := by
    cases hv : ex.contains dest
    · rfl
    · rw [hv] at he
      cases he
  simp only [planLoop, hdir, hb, hc, hsrc, hdep, hne, hnameF, Bool.not_true,
    Bool.not_false, if_true, if_false, Bool.false_eq_true, Bool.true_eq_false]

/-- A planning step on a file that fails some guard either skips the file
(continuing with the same accumulator) or raises. -/
theorem planLoop_cons_not_plannable {ex : List String} {root : String}
    {curYear : Nat} {g : FileInfo} (rest : List FileInfo)
    (acc : List (String × Op))
    (hplg : ¬plannableB ex root curYear g = true) :
    planLoop ex root curYear (g :: rest) acc =
      planLoop ex root curYear rest acc ∨
    ∃ e, planLoop ex root curYear (g :: rest) acc = .error e := by
  simp only [planLoop]
  by_cases h1 : g.isDir = true
  · rw [if_pos h1]
    exact Or.inl rfl
  · rw [if_neg h1]
    have h1f : g.isDir = false := by
      cases hv : g.isDir
      · rfl
      · exact absurd hv h1
    by_cases h2 : (!shouldOrganizeFilePlanned g.name) = true
    · rw [if_pos h2]
      exact Or.inl rfl
    · rw [if_neg h2]
      have h2t : shouldOrganizeFilePlanned g.name = true := by
        cases hv : shouldOrganizeFilePlanned g.name
        · rw [hv] at h2
          exact absurd rfl h2
        · rfl
      by_cases h3 : ex.contains g.name = true
      · rw [if_pos h3]
        exact Or.inl rfl
      · rw [if_neg h3]
        have h3f : ex.contains g.name = false := by
          cases hv : ex.contains g.name
          · rfl
          · exact absurd hv h3
        rcases hsp : rootPathParse root (fullPath g) with e | src
        · simp only [hsp]
          exact Or.inr ⟨e, rfl⟩
        · simp only [hsp]
          rcases hdg : getTargetPathPlanned root curYear g.name g.stat with e | dg
          · simp only [hdg]
            exact Or.inr ⟨e, rfl⟩
          · simp only [hdg]
            by_cases h4 : ex.contains dg = true
            · rw [if_pos h4]
              exact Or.inl rfl
            · exfalso
              apply hplg
              have h4f : ex.contains dg = false := by
                cases hv : ex.contains dg
                · rfl
                · exact absurd hv h4
              have h3m : g.name ∉ ex := by simpa using h3f
              have h4m : dg ∉ ex := by simpa using h4f
              simp [plannableB, h1f, h2t, h3f, hsp, hdg, h4f, Except.isOk,
                Except.toBool, h3m, h4m]

/-- No file still to be processed and passing every guard can have its
destination already claimed by the accumulator of a run that succeeds. -/
theorem planLoop_no_future_dup {ex : List String} {root : String}
    {curYear : Nat} :
    ∀ (fs : List FileInfo) (acc plan : List (String × Op)),
      planLoop ex root curYear fs acc = .ok plan →
      ∀ f ∈ fs, plannableB ex root curYear f = true →
        ∀ dest, destOfExc root curYear f = .ok dest →
          acc.any (fun p => p.1 == dest) = false := by
  intro fs
  induction fs with
  | nil =>
    intro acc plan _ f hf
    cases hf
  | cons g rest ih =>
    intro acc plan h f hf hpl dest hdest
    rcases List.mem_cons.1 hf with rfl | hfr
    · rw [planLoop_step_plannable rest acc hpl hdest] at h
      by_cases hany : acc.any (fun p => p.1 == dest) = true
      · rw [if_pos hany] at h
        cases h
      · cases hv : acc.any (fun p => p.1 == dest)
        · rfl
        · exact absurd hv hany
    · by_cases hplg : plannableB ex root curYear g = true
      · rcases hdg : destOfExc root curYear g with e | dg
        · exfalso
          simp only [plannableB, Bool.and_eq_true] at hplg
          obtain ⟨-, he⟩ := hplg
          have hdg2 : getTargetPathPlanned root curYear g.name g.stat = .error e := hdg
          simp only [hdg2] at he
          exact Bool.noConfusion he
        · rw [planLoop_step_plannable rest acc hplg hdg] at h
          by_cases hany : acc.any (fun p => p.1 == dg) = true
          · rw [if_pos hany] at h
            cases h
          · rw [if_neg hany] at h
            have hrec := ih _ _ h f hfr hpl dest hdest
            have hsplit : (acc.any (fun p => p.1 == dest) ||
                ([(dg, Op.move (fullPath g) dg)].any (fun p => p.1 == dest))) =
                false := by
              rw [← List.any_append]
              exact hrec
            exact (Bool.or_eq_false_iff.1 hsplit).1
      · rcases planLoop_cons_not_plannable rest acc hplg with hstep | ⟨e, hstep⟩
        · rw [hstep] at h
          exact ih _ _ h f hfr hpl dest hdest
        · rw [hstep] at h
          cases h

/-- A file passing every guard has a computed destination. -/
theorem plannableB_dest_ok {ex : List String} {root : String} {curYear : Nat}
    {f : FileInfo} (hpl : plannableB ex root curYear f = true) :
    ∃ d, destOfExc root curYear f = .ok d := by
  simp only [plannableB, Bool.and_eq_true] at hpl
  obtain ⟨-, he⟩ := hpl
  rcases hd : getTargetPathPlanned root curYear f.name f.stat with e | d
  · simp only [hd] at he
    exact Bool.noConfusion he
  · exact ⟨d, hd⟩

/-- A successful planning run over an appended list succeeds over its second
part from some intermediate accumulator. -/
theorem planLoop_append_ok {ex : List String} {root : String} {curYear : Nat} :
    ∀ (l1 l2 : List FileInfo) (acc plan : List (String × Op)),
      planLoop ex root curYear (l1 ++ l2) acc = .ok plan →
      ∃ acc2, planLoop ex root curYear l2 acc2 = .ok plan := by
  intro l1
  induction l1 with
  | nil =>
    intro l2 acc plan h
    exact ⟨acc, h⟩
  | cons g l1 ih =>
    intro l2 acc plan h
    rw [List.cons_append] at h
    by_cases hplg : plannableB ex root curYear g = true
    · obtain ⟨dg, hdg⟩ := plannableB_dest_ok hplg
      rw [planLoop_step_plannable _ _ hplg hdg] at h
      by_cases hany : acc.any (fun p => p.1 == dg) = true
      · rw [if_pos hany] at h
        cases h
      · rw [if_neg hany] at h
        exact ih _ _ _ h
    · rcases planLoop_cons_not_plannable _ acc hplg with hstep | ⟨e, hstep⟩
      · rw [hstep] at h
        exact ih _ _ _ h
      · rw [hstep] at h
        cases h

/-- A successful planning run succeeds over any tail of its input from some
intermediate accumulator. -/
theorem planLoop_drop_ok {ex : List String} {root : String} {curYear : Nat}
    {files : List FileInfo} {acc plan : List (String × Op)}
    (h : planLoop ex root curYear files acc = .ok plan) (n : Nat) :
    ∃ acc2, planLoop ex root curYear (files.drop n) acc2 = .ok plan := by
  apply planLoop_append_ok (files.take n) (files.drop n)
  rw [List.take_append_drop]
  exact h

/-- Destinations recorded by a successful planning run stay pairwise
distinct when the starting accumulator's keys are. -/
theorem planLoop_keys_nodup {ex : List String} {root : String}
    {curYear : Nat} :
    ∀ (fs : List FileInfo) (acc plan : List (String × Op)),
      planLoop ex root curYear fs acc = .ok plan →
      (acc.map Prod.fst).Nodup → (plan.map Prod.fst).Nodup := by
  intro fs
  induction fs with
  | nil =>
    intro acc plan h hn
    cases h
    exact hn
  | cons g rest ih =>
    intro acc plan h hn
    by_cases hplg : plannableB ex root curYear g = true
    · obtain ⟨dg, hdg⟩ := plannableB_dest_ok hplg
      rw [planLoop_step_plannable rest acc hplg hdg] at h
      by_cases hany : acc.any (fun p => p.1 == dg) = true
      · rw [if_pos hany] at h
        cases h
      · rw [if_neg hany] at h
        have hanyf : acc.any (fun p => p.1 == dg) = false := by
          cases hv : acc.any (fun p => p.1 == dg)
          · rfl
          · exact absurd hv hany
        refine ih _ _ h ?_
        rw [List.map_append, List.nodup_append]
        refine ⟨hn, List.nodup_singleton _, ?_⟩
        intro x hx hxs
        obtain ⟨p, hp, rfl⟩ := List.mem_map.1 hx
        have hxd : p.1 = dg := by
          have := List.mem_singleton.1 hxs
          simpa using this
        have := List.any_eq_false.1 hanyf p hp
        rw [beq_iff_eq] at this
        exact this hxd
    · rcases planLoop_cons_not_plannable rest acc hplg with hstep | ⟨e, hstep⟩
      · rw [hstep] at h
        exact ih _ _ h hn
      · rw [hstep] at h
        cases h

/-- An element at an index past `i` lies in the tail dropped at `i`. -/
theorem mem_drop_of_le {α : Type} :
    ∀ (l : List α) (i j : Nat) (hj : j < l.length), i ≤ j → l[j] ∈ l.drop i := by
  intro l
  induction l with
  | nil =>
    intro i j hj _
    cases hj
  | cons a t ih =>
    intro i j hj hij
    cases i with
    | zero => exact List.getElem_mem hj
    | succ i =>
      cases j with
      | zero => cases hij
      | succ j =>
        show (a :: t)[j + 1] ∈ (a :: t).drop (i + 1)
        have hjt : j < t.length := by
          simpa using hj
        have hget : (a :: t)[j + 1] = t[j] := rfl
        rw [hget]
        exact ih i j hjt (Nat.le_of_succ_le_succ hij)

/-- Two files passing every guard with the same computed destination make
every planning run fail. -/
theorem planLoop_conflict {ex : List String} {root : String} {curYear : Nat}
    {files : List FileInfo} {i j : Nat}
    (hi : i < files.length) (hj : j < files.length) (hij : i < j)
    (hpi : plannableB ex root curYear files[i] = true)
    (hpj : plannableB ex root curYear files[j] = true)
    {d : String}
    (hdi : destOfExc root curYear files[i] = .ok d)
    (hdj : destOfExc root curYear files[j] = .ok d)
    (acc plan : List (String × Op))
    (h : planLoop ex root curYear files acc = .ok plan) : False := by
  obtain ⟨acc2, h2⟩ := planLoop_drop_ok h i
  rw [List.drop_eq_getElem_cons hi] at h2
  rw [planLoop_step_plannable _ _ hpi hdi] at h2
  by_cases hany : acc2.any (fun p => p.1 == d) = true
  · rw [if_pos hany] at h2
    cases h2
  · rw [if_neg hany] at h2
    have hmem : files[j] ∈ files.drop (i + 1) :=
      mem_drop_of_le files (i + 1) j hj hij
    have hfut := planLoop_no_future_dup _ _ _ h2 files[j] hmem hpj d hdj
    rw [List.any_append] at hfut
    rcases Bool.or_eq_false_iff.1 hfut with ⟨-, h1⟩
    simp at h1

/-! ## Claim C1: destination injectivity -/

/-- Claim C1: every successful plan keys its operations by pairwise
distinct destinations, and two distinct files that both pass the guards
and resolve to the same destination make planning raise the
duplicate-destination error instead of producing a plan. -/
theorem c1_destination_injectivity :
    (∀ (root : String) (curYear : Nat) (files : List FileInfo)
        (res : PlanResults),
      planOperations root curYear files = .ok res →
      (res.plannedOps.map Prod.fst).Nodup) ∧
    (∀ (root : String) (curYear : Nat) (files : List FileInfo) (i j : Nat)
        (hi : i < files.length) (hj : j < files.length), i ≠ j →
      plannableB (existingPaths files) root curYear files[i] = true →
      plannableB (existingPaths files) root curYear files[j] = true →
      ∀ d : String,
        destOfExc root curYear files[i] = .ok d →
        destOfExc root curYear files[j] = .ok d →
        ∃ e, planOperations root curYear files = .error e) := by
  constructor
  · intro root curYear files res h
    simp only [planOperations] at h
    split at h
    · cases h
    · rename_i acc hacc
      split at h
      · cases h
      · cases h
        exact planLoop_keys_nodup _ _ _ hacc (by simp)
  · intro root curYear files i j hi hj hij hpi hpj d hdi hdj
    rcases hpo : planOperations root curYear files with e | res
    · exact ⟨e, rfl⟩
    · exfalso
      simp only [planOperations] at hpo
      split at hpo
      · cases hpo
      · rename_i acc hacc
        rcases Nat.lt_or_ge i j with hlt | hge
        · exact planLoop_conflict hi hj hlt hpi hpj hdi hdj [] acc hacc
        · have hlt : j < i := by omega
          exact planLoop_conflict hj hi hlt hpj hpi hdj hdi [] acc hacc

/-- Witness for C1: a successful singleton plan with distinct keys, and a
concrete two-file conflict raising the error. -/
theorem c1_destination_injectivity_witness :
    ((PlanResults.mk
      [("/r/06 June/b.png", Op.move "/r/b.png" "/r/06 June/b.png")]
      [("/r/06 June/b.png", Op.move "/r/b.png" "/r/06 June/b.png")]
      []).plannedOps.map Prod.fst).Nodup ∧
    ∃ e, planOperations "/r" 2024 [fileRootB, fileSubB] = .error e := by
  constructor
  · exact c1_destination_injectivity.1 "/r" 2024 [fileRootB] _ (by decide)
  · exact c1_destination_injectivity.2 "/r" 2024 [fileRootB, fileSubB] 0 1
      (by decide) (by decide) (by decide) (by decide) (by decide)
      "/r/06 June/b.png" (by decide) (by decide)

/-! ## Claim C2: planner idempotence -/

/-- Claim C2, as stated, is false: a June screenshot in a subdirectory is
skipped because its destination is occupied by a July file, the plan moves
that July file away, and re-planning the executed tree plans a move for
the June file — the second plan is not empty. -/
theorem c2_counterexample :
    planOperations "/r" 2024 [fileSubJune, fileAtJune] =
      .ok ⟨[("/r/07 July/a.png", Op.move "/r/06 June/a.png" "/r/07 July/a.png")],
           [("/r/07 July/a.png", Op.move "/r/06 June/a.png" "/r/07 July/a.png")],
           []⟩ ∧
    (1 : Nat) ≤ MAX_OPS ∧
    planOperations "/r" 2024
      (applyPlan
        [("/r/07 July/a.png", Op.move "/r/06 June/a.png" "/r/07 July/a.png")]
        [fileSubJune, fileAtJune] ++ [dirJuly]) =
      .ok ⟨[("/r/06 June/a.png", Op.move "/r/sub/a.png" "/r/06 June/a.png")],
           [("/r/06 June/a.png", Op.move "/r/sub/a.png" "/r/06 June/a.png")],
           []⟩ ∧
    [("/r/06 June/a.png", Op.move "/r/sub/a.png" "/r/06 June/a.png")] ≠
      ([] : List (String × Op)) :=
  ⟨by decide, by decide, by decide, by decide⟩

theorem rootPathParse_ok_eq {root p src : String}
    (h : rootPathParse root p = .ok src) : src = p ∧ strStarts p root = true ∧ p ≠ "" := by
  unfold rootPathParse at h
  split at h
  · cases h
  · split at h
    · cases h
      next h1 h2 => exact ⟨rfl, h2, h1⟩
    · cases h

/-- The planning loop only grows its accumulator. -/
theorem planLoop_acc_sub {ex : List String} {root : String} {curYear : Nat} :
    ∀ (fs : List FileInfo) (acc plan : List (String × Op)),
      planLoop ex root curYear fs acc = .ok plan → ∀ p ∈ acc, p ∈ plan := by
  intro fs
  induction fs with
  | nil =>
    intro acc plan h p hp
    cases h
    exact hp
  | cons g rest ih =>
    intro acc plan h p hp
    by_cases hplg : plannableB ex root curYear g = true
    · obtain ⟨dg, hdg⟩ := plannableB_dest_ok hplg
      rw [planLoop_step_plannable rest acc hplg hdg] at h
      by_cases hany : acc.any (fun q => q.1 == dg) = true
      · rw [if_pos hany] at h
        cases h
      · rw [if_neg hany] at h
        exact ih _ _ h p (List.mem_append.2 (Or.inl hp))
    · rcases planLoop_cons_not_plannable rest acc hplg with hstep | ⟨e, hstep⟩
      · rw [hstep] at h
        exact ih _ _ h p hp
      · rw [hstep] at h
        cases h

/-- Every entry of a successful plan is an accumulator entry or the
recorded move of a guard-passing scanned file. -/
theorem planLoop_entries_spec {ex : List String} {root : String}
    {curYear : Nat} :
    ∀ (fs : List FileInfo) (acc plan : List (String × Op)),
      planLoop ex root curYear fs acc = .ok plan →
      ∀ p ∈ plan, p ∈ acc ∨ ∃ g ∈ fs,
        plannableB ex root curYear g = true ∧
        destOfExc root curYear g = .ok p.1 ∧
        p.2 = Op.move (fullPath g) p.1 := by
  intro fs
  induction fs with
  | nil =>
    intro acc plan h p hp
    cases h
    exact Or.inl hp
  | cons g rest ih =>
    intro acc plan h p hp
    by_cases hplg : plannableB ex root curYear g = true
    · obtain ⟨dg, hdg⟩ := plannableB_dest_ok hplg
      rw [planLoop_step_plannable rest acc hplg hdg] at h
      by_cases hany : acc.any (fun q => q.1 == dg) = true
      · rw [if_pos hany] at h
        cases h
      · rw [if_neg hany] at h
        rcases ih _ _ h p hp with hpa | ⟨g2, hg2, hrest⟩
        · rcases List.mem_append.1 hpa with hpa | hps
          · exact Or.inl hpa
          · rcases List.mem_singleton.1 hps with rfl
            exact Or.inr ⟨g, List.mem_cons_self g rest, hplg, hdg, rfl⟩
        · exact Or.inr ⟨g2, List.mem_cons_of_mem _ hg2, hrest⟩
    · rcases planLoop_cons_not_plannable rest acc hplg with hstep | ⟨e, hstep⟩
      · rw [hstep] at h
        rcases ih _ _ h p hp with hpa | ⟨g2, hg2, hrest⟩
        · exact Or.inl hpa
        · exact Or.inr ⟨g2, List.mem_cons_of_mem _ hg2, hrest⟩
      · rw [hstep] at h
        cases h

/-- When every scanned entry satisfies one of the skip guards, the
planning loop returns its accumulator unchanged. -/
theorem planLoop_all_skip {ex : List String} {root : String} {curYear : Nat} :
    ∀ (fs : List FileInfo) (acc : List (String × Op)),
      (∀ f ∈ fs,
        f.isDir = true ∨ shouldOrganizeFilePlanned f.name = false ∨
        ex.contains f.name = true ∨
        (∃ d, rootPathParse root (fullPath f) = .ok (fullPath f) ∧
          destOfExc root curYear f = .ok d ∧ ex.contains d = true)) →
      planLoop ex root curYear fs acc = .ok acc := by
  intro fs
  induction fs with
  | nil =>
    intro acc _
    rfl
  | cons g rest ih =>
    intro acc hall
    have hrest := fun f hf => hall f (List.mem_cons_of_mem _ hf)
    have hg := hall g (List.mem_cons_self g rest)
    simp only [planLoop]
    by_cases h1 : g.isDir = true
    · rw [if_pos h1]
      exact ih acc hrest
    · rw [if_neg h1]
      by_cases h2 : shouldOrganizeFilePlanned g.name = true
      · have h2n : ¬(!shouldOrganizeFilePlanned g.name) = true := by
          rw [h2]
          exact Bool.noConfusion
        rw [if_neg h2n]
        by_cases h3 : ex.contains g.name = true
        · rw [if_pos h3]
          exact ih acc hrest
        · rw [if_neg h3]
          rcases hg with hg | hg | hg | ⟨d, hsp, hdg, hin⟩
          · exact absurd hg h1
          · rw [hg] at h2
            exact Bool.noConfusion h2
          · exact absurd hg h3
          · have hdg2 : getTargetPathPlanned root curYear g.name g.stat = .ok d := hdg
            simp only [hsp, hdg2]
            rw [if_pos hin]
            exact ih acc hrest
      · have h2f : shouldOrganizeFilePlanned g.name = false := by
          cases hv : shouldOrganizeFilePlanned g.name
          · rfl
          · exact absurd hv h2
        have h2t : (!shouldOrganizeFilePlanned g.name) = true := by
          rw [h2f]
          rfl
        rw [if_pos h2t]
        exact ih acc hrest

/-- In a successful run, every scanned entry is skipped by one of the
guards or has its move recorded in the plan. -/
theorem planLoop_file_outcome {ex : List String} {root : String}
    {curYear : Nat} :
    ∀ (fs : List FileInfo) (acc plan : List (String × Op)),
      planLoop ex root curYear fs acc = .ok plan →
      ∀ f ∈ fs,
        f.isDir = true ∨ shouldOrganizeFilePlanned f.name = false ∨
        ex.contains f.name = true ∨
        (rootPathParse root (fullPath f) = .ok (fullPath f) ∧
         ∃ d, destOfExc root curYear f = .ok d ∧
           f.isDir = false ∧ shouldOrganizeFilePlanned f.name = true ∧
           (ex.contains d = true ∨ (d, Op.move (fullPath f) d) ∈ plan)) := by
  intro fs
  induction fs with
  | nil =>
    intro acc plan h f hf
    cases hf
  | cons g rest ih =>
    intro acc plan h f hf
    by_cases h1 : g.isDir = true
    · have hstep : planLoop ex root curYear (g :: rest) acc =
          planLoop ex root curYear rest acc := by
        simp only [planLoop]
        rw [if_pos h1]
      rw [hstep] at h
      rcases List.mem_cons.1 hf with rfl | hfr
      · exact Or.inl h1
      · exact ih _ _ h f hfr
    · by_cases h2 : shouldOrganizeFilePlanned g.name = true
      · have h2n : ¬(!shouldOrganizeFilePlanned g.name) = true := by
          rw [h2]
          exact Bool.noConfusion
        by_cases h3 : ex.contains g.name = true
        · have hstep : planLoop ex root curYear (g :: rest) acc =
              planLoop ex root curYear rest acc := by
            simp only [planLoop]
            rw [if_neg h1, if_neg h2n, if_pos h3]
          rw [hstep] at h
          rcases List.mem_cons.1 hf with rfl | hfr
          · exact Or.inr (Or.inr (Or.inl h3))
          · exact ih _ _ h f hfr
        · rcases hsp : rootPathParse root (fullPath g) with e | src
          · have hstep : planLoop ex root curYear (g :: rest) acc = .error e := by
              simp only [planLoop]
              rw [if_neg h1, if_neg h2n, if_neg h3]
              simp only [hsp]
            rw [hstep] at h
            cases h
          · obtain ⟨heq, -, -⟩ := rootPathParse_ok_eq hsp
            subst heq
            rcases hdg : getTargetPathPlanned root curYear g.name g.stat
              with e | dg
            · have hstep : planLoop ex root curYear (g :: rest) acc = .error e := by
                simp only [planLoop]
                rw [if_neg h1, if_neg h2n, if_neg h3]
                simp only [hsp, hdg]
              rw [hstep] at h
              cases h
            · by_cases h4 : ex.contains dg = true
              · have hstep : planLoop ex root curYear (g :: rest) acc =
                    planLoop ex root curYear rest acc := by
                  simp only [planLoop]
                  rw [if_neg h1, if_neg h2n, if_neg h3]
                  simp only [hsp, hdg]
                  rw [if_pos h4]
                rw [hstep] at h
                rcases List.mem_cons.1 hf with rfl | hfr
                · refine Or.inr (Or.inr (Or.inr ⟨hsp, dg, hdg, ?_, h2, Or.inl h4⟩))
                  cases hv : FileInfo.isDir f
                  · rfl
                  · exact absurd hv h1
                · exact ih _ _ h f hfr
              · by_cases hany : acc.any (fun p => p.1 == dg) = true
                · have hstep : planLoop ex root curYear (g :: rest) acc =
                      .error ("Duplicate destination planned: " ++ dg) := by
                    simp only [planLoop]
                    rw [if_neg h1, if_neg h2n, if_neg h3]
                    simp only [hsp, hdg]
                    rw [if_neg h4, if_pos hany]
                  rw [hstep] at h
                  cases h
                · have hstep : planLoop ex root curYear (g :: rest) acc =
                      planLoop ex root curYear rest
                        (acc ++ [(dg, Op.move (fullPath g) dg)]) := by
                    simp only [planLoop]
                    rw [if_neg h1, if_neg h2n, if_neg h3]
                    simp only [hsp, hdg]
                    rw [if_neg h4, if_neg hany]
                  rw [hstep] at h
                  rcases List.mem_cons.1 hf with rfl | hfr
                  · refine Or.inr (Or.inr (Or.inr ⟨hsp, dg, hdg, ?_, h2, Or.inr ?_⟩))
                    · cases hv : FileInfo.isDir f
                      · rfl
                      · exact absurd hv h1
                    · exact planLoop_acc_sub _ _ _ h _
                        (List.mem_append.2 (Or.inr (List.mem_singleton.2 rfl)))
                  · exact ih _ _ h f hfr
      · have h2f : shouldOrganizeFilePlanned g.name = false := by
          cases hv : shouldOrganizeFilePlanned g.name
          · rfl
          · exact absurd hv h2
        have h2t : (!shouldOrganizeFilePlanned g.name) = true := by
          rw [h2f]
          rfl
        have hstep : planLoop ex root curYear (g :: rest) acc =
            planLoop ex root curYear rest acc := by
          simp only [planLoop]
          rw [if_neg h1, if_pos h2t]
        rw [hstep] at h
        rcases List.mem_cons.1 hf with rfl | hfr
        · exact Or.inr (Or.inl h2f)
        · exact ih _ _ h f hfr

/-- Rebuilding a string from its characters is the identity. -/
theorem mk_data (s : String) : String.mk s.data = s := by
  cases s
  rfl

/-- A computed destination is its directory part joined with the file
name, under the root. -/
theorem getTargetPath_shape {root : String} {curYear : Nat} {name : String}
    {st : Stat} {d : String} (hroot : root ≠ "")
    (h : getTargetPathPlanned root curYear name st = .ok d) :
    ∃ dir, d = joinPath dir name ∧ dir ≠ "" ∧ strStarts d root = true := by
  unfold getTargetPathPlanned at h
  split at h
  · cases h
  · next date hdate =>
    split at h
    · cases h
    · next mn hmn =>
      simp only [] at h
      by_cases hy : date.year < curYear
      · rw [if_pos hy] at h
        split at h
        · next hchk =>
          cases h
          unfold destDirPathCheck at hchk
          rw [Bool.and_eq_true] at hchk
          exact ⟨joinPath (joinPath root ("_" ++ Nat.repr date.year)) mn, rfl,
            joinPath_ne_empty _ _ (joinPath_ne_empty root _ hroot), hchk.1⟩
        · cases h
      · rw [if_neg hy] at h
        split at h
        · next hchk =>
          cases h
          unfold destDirPathCheck at hchk
          rw [Bool.and_eq_true] at hchk
          exact ⟨joinPath root mn, rfl, joinPath_ne_empty root _ hroot, hchk.1⟩
        · cases h

theorem takeWhile_dropWhile_append {p : Char → Bool} :
    ∀ (l1 : List Char) (c0 : Char) (l2 : List Char),
      (∀ c ∈ l1, p c = true) → p c0 = false →
      (l1 ++ c0 :: l2).takeWhile p = l1 ∧
      (l1 ++ c0 :: l2).dropWhile p = c0 :: l2 := by
  intro l1
  induction l1 with
  | nil =>
    intro c0 l2 _ h0
    constructor
    · simp [List.takeWhile_cons, h0]
    · simp [List.dropWhile_cons, h0]
  | cons c l1 ih =>
    intro c0 l2 hall h0
    have hc := hall c (List.mem_cons_self c l1)
    obtain ⟨ht, hd⟩ := ih c0 l2 (fun x hx => hall x (List.mem_cons_of_mem _ hx)) h0
    constructor
    · simp [List.takeWhile_cons, hc, ht]
    · simp [List.dropWhile_cons, hc, hd]

/-- Splitting a joined path at its last slash recovers the directory part
and the slash-free base name. -/
theorem parts_of_joinPath {dir name : String} (hdir : dir ≠ "")
    (hns : '/' ∉ name.data) :
    dirPart (joinPath dir name) = dir ∧ lastPart (joinPath dir name) = name := by
  have hdata : (joinPath dir name).data = dir.data ++ '/' :: name.data :=
    joinPath_data dir name hdir
  have hrev : (joinPath dir name).data.reverse =
      name.data.reverse ++ '/' :: dir.data.reverse := by
    rw [hdata]
    simp [List.reverse_append]
  have hallp : ∀ c ∈ name.data.reverse, (decide (c ≠ '/')) = true := by
    intro c hc
    have hcm : c ∈ name.data := List.mem_reverse.1 hc
    simp only [decide_eq_true_eq]
    intro hcc
    rw [hcc] at hcm
    exact hns hcm
  have h0 : (decide (('/' : Char) ≠ '/')) = false := by simp
  obtain ⟨ht, hd⟩ := takeWhile_dropWhile_append name.data.reverse '/'
    dir.data.reverse hallp h0
  constructor
  · unfold dirPart dirPartChars
    rw [hrev, hd]
    simp [mk_data]
  · unfold lastPart lastPartChars
    rw [hrev, ht]
    simp [mk_data]

/-- A path that extends a nonempty prefix is nonempty. -/
theorem ne_empty_of_strStarts {root p : String} (hroot : root ≠ "")
    (h : strStarts p root = true) : p ≠ "" := by
  intro he
  rw [he] at h
  unfold strStarts at h
  rcases hd : root.data with - | ⟨c, t⟩
  · exact data_ne_nil hroot hd
  · rw [hd] at h
    exact Bool.noConfusion h

/-- The full path of an entry with a nonempty parent contains a slash. -/
theorem slash_in_fullPath {f : FileInfo} (hp : f.parentPath ≠ "") :
    '/' ∈ (fullPath f).data := by
  unfold fullPath
  rw [joinPath_data _ _ hp]
  exact List.mem_append.2 (Or.inr (List.mem_cons_self _ _))

theorem existingPaths_mem {files : List FileInfo} {e : String} :
    e ∈ existingPaths files ↔
      ∃ h ∈ files, h.isDir = false ∧ fullPath h = e := by
  unfold existingPaths
  rw [List.mem_map]
  constructor
  · rintro ⟨f, hf, rfl⟩
    rw [List.mem_filter] at hf
    exact ⟨f, hf.1, by simpa using hf.2, rfl⟩
  · rintro ⟨f, hf, hdir, rfl⟩
    exact ⟨f, List.mem_filter.2 ⟨hf, by simp [hdir]⟩, rfl⟩

theorem contains_true_of_mem {l : List String} {a : String} (h : a ∈ l) :
    l.contains a = true := by
  simpa using h

theorem contains_false_of_not_mem {l : List String} {a : String} (h : a ∉ l) :
    l.contains a = false := by
  simpa using h

/-- A slash-free name is never a key of an existing-file map whose entries
all have nonempty parent directories. -/
theorem name_contains_false {L : List FileInfo} {n : String}
    (hslash : '/' ∉ n.data)
    (hall : ∀ h ∈ L, h.isDir = false → h.parentPath ≠ "") :
    (existingPaths L).contains n = false := by
  apply contains_false_of_not_mem
  intro hm
  obtain ⟨h0, hh0, hdir, hfp⟩ := existingPaths_mem.1 hm
  have hsl := slash_in_fullPath (hall h0 hh0 hdir)
  rw [hfp] at hsl
  exact hslash hsl

theorem rootPathParse_ok_of {root p : String} (hne : p ≠ "")
    (hst : strStarts p root = true) : rootPathParse root p = .ok p := by
  unfold rootPathParse
  rw [if_neg hne, if_pos hst]

/-- Effect of executing the plan on one scanned file: either no planned
move has it as source and it stays put, or it was planned and lands at its
computed destination with its name and stat preserved. -/
theorem applyMove_spec {root : String} {curYear : Nat} {files : List FileInfo}
    {acc : List (String × Op)} (hroot : root ≠ "")
    (hnodup : (files.map fullPath).Nodup)
    (hacc : planLoop (existingPaths files) root curYear files [] = .ok acc) :
    ∀ f ∈ files, '/' ∉ f.name.data →
      (applyMove acc f = f ∧
        (∀ p ∈ acc, ∀ s d2, p.2 = Op.move s d2 → s ≠ fullPath f)) ∨
      (∃ d dir, destOfExc root curYear f = .ok d ∧
        plannableB (existingPaths files) root curYear f = true ∧
        d = joinPath dir f.name ∧ dir ≠ "" ∧ strStarts d root = true ∧
        dirPart d = dir ∧ lastPart d = f.name ∧
        applyMove acc f = ⟨dirPart d, lastPart d, false, f.stat⟩ ∧
        (d, Op.move (fullPath f) d) ∈ acc) := by
  intro f hf hns
  rcases hfind : acc.find? (fun p =>
      match p.2 with
      | Op.move src _ => src == fullPath f
      | Op.rmdir _ => false) with - | ⟨d, op⟩
  · left
    constructor
    · unfold applyMove
      rw [hfind]
    · intro p hp s d2 heq hcontra
      have hpred := List.find?_eq_none.1 hfind p hp
      rw [heq] at hpred
      apply hpred
      simp only [hcontra]
      exact beq_self_eq_true _
  · right
    have hpmem := List.mem_of_find?_eq_some hfind
    have hpred := List.find?_some hfind
    rcases planLoop_entries_spec files [] acc hacc _ hpmem with hnil | ⟨g, hg, hplg, hdg, hopg⟩
    · cases hnil
    · have hopg2 : op = Op.move (fullPath g) d := hopg
      have hdgd : destOfExc root curYear g = .ok d := hdg
      simp only [hopg2] at hpred
      have hsg : fullPath g = fullPath f := by
        rw [beq_iff_eq] at hpred
        exact hpred
      have hgf : g = f := List.inj_on_of_nodup_map hnodup hg hf hsg
      subst hgf
      have hdg2 : destOfExc root curYear g = .ok d := hdgd
      obtain ⟨dir, hshape, hdirne, hdroot⟩ := getTargetPath_shape hroot hdg2
      have hparts := parts_of_joinPath hdirne hns
      refine ⟨d, dir, hdg2, hplg, hshape, hdirne, hdroot, ?_, ?_, ?_, ?_⟩
      · rw [hshape]
        exact hparts.1
      · rw [hshape]
        exact hparts.2
      · unfold applyMove
        rw [hfind]
      · rw [← hopg2]
        exact hpmem

/-- Claim C2 (amended): after the plan is fully executed, re-scanning and
re-planning yields an empty plan, provided no planned move's source path is
the computed destination of another organizable file of the snapshot
(without that proviso a file skipped because its destination was occupied
becomes plannable once the occupier is moved away, as the counterexample
shows). Directories created during execution may appear in the new scan. -/
theorem c2_idempotence :
    ∀ (root : String) (curYear : Nat) (files : List FileInfo)
        (res : PlanResults),
      wfSnap root files →
      planOperations root curYear files = .ok res →
      res.plannedOps.length ≤ MAX_OPS →
      (∀ f ∈ files, f.isDir = false → shouldOrganizeFilePlanned f.name = true →
        ∀ d, destOfExc root curYear f = .ok d →
          ∀ p ∈ res.plannedOps, ∀ s d2, p.2 = Op.move s d2 → s ≠ d) →
      ∀ extra : List FileInfo, (∀ e ∈ extra, e.isDir = true) →
        planOperations root curYear (applyPlan res.plannedOps files ++ extra) =
          .ok ⟨[], [], []⟩ := by
  intro root curYear files res hwf hplan hlen hev extra hex
  obtain ⟨hroot, hwff, hnodup⟩ := hwf
  simp only [planOperations] at hplan
  split at hplan
  · cases hplan
  · rename_i acc hacc
    split at hplan
    · cases hplan
    · cases hplan
      have hchar := applyMove_spec hroot hnodup hacc
      have houtcome := planLoop_file_outcome files [] acc hacc
      -- every entry of the re-scan satisfies a skip guard
      have hskipall : ∀ f2 ∈ applyPlan acc files ++ extra,
          f2.isDir = true ∨ shouldOrganizeFilePlanned f2.name = false ∨
          (existingPaths (applyPlan acc files ++ extra)).contains f2.name = true ∨
          (∃ d, rootPathParse root (fullPath f2) = .ok (fullPath f2) ∧
            destOfExc root curYear f2 = .ok d ∧
            (existingPaths (applyPlan acc files ++ extra)).contains d = true) := by
        intro f2 hf2
        rcases List.mem_append.1 hf2 with hf2l | hf2r
        · obtain ⟨f, hf, rfl⟩ := List.mem_map.1 hf2l
          have hnsname : '/' ∉ f.name.data := (hwff f hf).2.1
          rcases hchar f hf hnsname with ⟨heq, hnosrc⟩ | hmoved
          · -- f untouched by the plan
            rw [heq]
            rcases houtcome f hf with h1 | h2 | h3 | ⟨hsp, d0, hd0, hdirB, horgB, hdisj⟩
            · exact Or.inl h1
            · exact Or.inr (Or.inl h2)
            · exfalso
              have := name_contains_false hnsname (fun h0 hh0 _ =>
                ne_empty_of_strStarts hroot (hwff h0 hh0).2.2)
              rw [h3] at this
              exact Bool.noConfusion this
            · rcases hdisj with hocc | hplanned
              · -- destination occupied in the first scan: the occupier
                -- stays put by the eviction-free hypothesis
                obtain ⟨h0, hh0, hdir0, hfp0⟩ :=
                  existingPaths_mem.1 (by simpa using hocc)
                have hns0 : '/' ∉ h0.name.data := (hwff h0 hh0).2.1
                rcases hchar h0 hh0 hns0 with ⟨heq0, -⟩ | ⟨d1, dir1, -, -, -, -, -, -, -, -, hmem1⟩
                · refine Or.inr (Or.inr (Or.inr ⟨d0, hsp, hd0, ?_⟩))
                  apply contains_true_of_mem
                  apply existingPaths_mem.2
                  refine ⟨applyMove acc h0, ?_, ?_, ?_⟩
                  · exact List.mem_append.2 (Or.inl
                      (List.mem_map.2 ⟨h0, hh0, rfl⟩))
                  · rw [heq0]
                    exact hdir0
                  · rw [heq0, hfp0]
                · exfalso
                  exact hev f hf hdirB horgB d0 hd0 _ hmem1 (fullPath h0) d1 rfl
                    (hfp0 ▸ rfl)
              · exfalso
                exact hnosrc _ hplanned (fullPath f) d0 rfl rfl
          · -- f was moved to its destination
            obtain ⟨d, dir, hdf, hplf, hshape, hdirne, hdroot, hdirp, hlastp,
              hmv, hmem⟩ := hmoved
            rw [hmv]
            have hfull2 : fullPath ⟨dirPart d, lastPart d, false, f.stat⟩ = d := by
              unfold fullPath
              simp only [hdirp, hlastp]
              rw [← hshape]
            refine Or.inr (Or.inr (Or.inr ⟨d, ?_, ?_, ?_⟩))
            · rw [hfull2]
              exact rootPathParse_ok_of
                (ne_empty_of_strStarts hroot hdroot) hdroot
            · show getTargetPathPlanned root curYear (lastPart d) f.stat = .ok d
              rw [hlastp]
              exact hdf
            · apply contains_true_of_mem
              apply existingPaths_mem.2
              exact ⟨⟨dirPart d, lastPart d, false, f.stat⟩,
                List.mem_append.2 (Or.inl (List.mem_map.2 ⟨f, hf, hmv⟩)),
                rfl, hfull2⟩
        · exact Or.inl (hex f2 hf2r)
      simp only [planOperations]
      rw [planLoop_all_skip _ [] hskipall]
      rfl

/-- Witness for the amended C2: a one-file snapshot is planned, executed
(the scan then also shows the created month directory), and re-planning
yields the empty plan. -/
theorem c2_idempotence_witness :
    planOperations "/r" 2024
      (applyPlan [("/r/06 June/b.png", Op.move "/r/b.png" "/r/06 June/b.png")]
        [fileRootB] ++
       [FileInfo.mk "/r" "06 June" true (mkStat 2024 6 5 (by decide))]) =
      .ok ⟨[], [], []⟩ := by
  have h := c2_idempotence "/r" 2024 [fileRootB]
    ⟨[("/r/06 June/b.png", Op.move "/r/b.png" "/r/06 June/b.png")],
     [("/r/06 June/b.png", Op.move "/r/b.png" "/r/06 June/b.png")], []⟩
    ⟨by decide,
     by
      intro f hf
      rcases List.mem_singleton.1 hf with rfl
      exact ⟨by decide, by decide, by decide⟩,
     by decide⟩
    (by decide) (by decide)
    (by
      intro f hf hdir horg d hd p hp s d2 heq
      rcases List.mem_singleton.1 hf with rfl
      have hdv : destOfExc "/r" 2024 fileRootB = .ok "/r/06 June/b.png" := by
        decide
      rw [hdv] at hd
      cases hd
      rcases List.mem_singleton.1 hp with rfl
      cases heq
      decide)
    [FileInfo.mk "/r" "06 June" true (mkStat 2024 6 5 (by decide))]
    (by
      intro e he
      rcases List.mem_singleton.1 he with rfl
      rfl)
  exact h

end ShotsOrger
